import Mathlib

/-!
# Conway's Game of Life on a torus (`main.go`)

A shallow embedding of `NewBoard`, `Board.Tick`, `Board.String` and `Board.fate`.

* Go `int` values are `Int`; `/` and `%` are Go's truncating operators
  (`Int.tdiv`, `Int.tmod`).  Board sides are bounded by the memory holding the
  grid, so no sum below leaves the 64-bit range.
* A `rune` is an integer code point (`Int`); cells are only compared with `L`
  and converted to text by `runesToString`.
* A slice is a `List`; every read, write and `make` that panics in Go yields
  `none` here, so a function returning `some _` did not panic.
-/

namespace Gol

/-- Go's `rune`: an integer code point. -/
abbrev Rune := Int

/-- Go's `string`. -/
abbrev GoString := String

/-- The type `Pattern [][]rune`: a matrix of runes. -/
abbrev Pattern := List (List Rune)

/-- The constant `L = 'O'`, a live cell. -/
def L : Rune := 79

/-- The constant `D = ' '`, a dead cell. -/
def D : Rune := 32

/-- The catalogue entry `patterns["glider"]`. -/
def glider : Pattern :=
  [[D, L, D],
   [D, D, L],
   [L, L, L]]

/-- The catalogue entry `patterns["spaceship"]`. -/
def spaceship : Pattern :=
  [[D, L, D, D, L],
   [L, D, D, D, D],
   [L, D, D, D, L],
   [L, L, L, L, D],
   [D, D, D, D, D]]

/-- The struct `Board { dim int; gen Pattern }`. -/
structure Board where
  dim : Int
  gen : Pattern
deriving DecidableEq

/-- Slice read `xs[i]`; out of range panics. -/
def sliceGet {α : Type} (xs : List α) (i : Int) : Option α :=
  if 0 ≤ i ∧ i < (xs.length : Int) then xs[i.toNat]? else none

/-- Slice write `xs[i] = v`; out of range panics. -/
def sliceSet {α : Type} (xs : List α) (i : Int) (v : α) : Option (List α) :=
  if 0 ≤ i ∧ i < (xs.length : Int) then some (xs.set i.toNat v) else none

/-- Allocation `make([]T, n)` filled with the zero value; a negative length panics. -/
def make {α : Type} (n : Int) (zero : α) : Option (List α) :=
  if 0 ≤ n then some (List.replicate n.toNat zero) else none

/-- The values taken by `x` in `for x := 0; x < n; x++`. -/
def upto (n : Int) : List Int :=
  (List.range n.toNat).map Int.ofNat

/-- The read `g[row][col]` on a matrix. -/
def readCell (g : Pattern) (row col : Int) : Option Rune := do
  let r ← sliceGet g row
  sliceGet r col

/-- The assignment `gen[row][col] = v` on a matrix. -/
def writeCell (g : Pattern) (row col : Int) (v : Rune) : Option Pattern := do
  let r ← sliceGet g row
  let r ← sliceSet r col v
  sliceSet g row r

/-- The nested loops shared by `NewBoard` and `Tick`:
`gen := make(Pattern, dim)`, then for each `row < n` the row is allocated with
`make([]rune, dim)` and for each `col < n` the cell value is computed and
stored in `gen[row][col]`. -/
def buildGrid (dim n : Int) (cell : Int → Int → Option Rune) : Option Pattern := do
  let gen ← make dim ([] : List Rune)
  (upto n).foldlM (fun gen row => do
    let fresh ← make dim (0 : Rune)
    let gen ← sliceSet gen row fresh
    (upto n).foldlM (fun gen col => do
      let v ← cell row col
      writeCell gen row col v) gen) gen

/-- The value `NewBoard` stores at `(row, col)`: the pattern cell when the
bounds test of line 101 holds, `D` otherwise. -/
def newBoardCell (dim : Int) (p : Pattern) (row col : Int) : Option Rune :=
  let pDim : Int := (p.length : Int)
  let pFirstRow := Int.tdiv (dim - pDim) 2
  let pLastRow := pFirstRow + pDim
  let pFirstCol := pFirstRow
  let pLastCol := pFirstCol + pDim
  if row ≥ pFirstCol ∧ row < pLastCol ∧ col ≥ pFirstRow ∧ col < pLastRow then
    readCell p (row - pFirstCol) (col - pFirstRow)
  else
    some D

/-- The function `NewBoard(dim, p)`. -/
def NewBoard (dim : Int) (p : Pattern) : Option Board := do
  let gen ← buildGrid dim dim (newBoardCell dim p)
  some { dim := dim, gen := gen }

/-- One pass of the inner neighbour loop of `fate` (lines 161-178) for the
offset `(i, j)`; `%` by a zero `dim` panics. -/
def fateStep (b : Board) (cellRow cellCol i j : Int) (neighbors : Int) : Option Int :=
  if b.dim = 0 then none else
  let row := Int.tmod (cellRow + i + b.dim) b.dim
  let col := Int.tmod (cellCol + j + b.dim) b.dim
  if cellRow = row ∧ cellCol = col then some neighbors
  else do
    let x ← readCell b.gen row col
    if x = L then some (neighbors + 1) else some neighbors

/-- The neighbour loop of `fate` (lines 158-180): the final value of `neighbors`. -/
def fateNeighbors (b : Board) (cellRow cellCol : Int) : Option Int :=
  [-1, 0, 1].foldlM (fun neighbors i =>
    [-1, 0, 1].foldlM (fun neighbors j => fateStep b cellRow cellCol i j neighbors)
      neighbors) 0

/-- The method `fate`: the neighbour loop, then the rule switch of lines 182-194. -/
def fate (b : Board) (cellRow cellCol : Int) : Option Rune := do
  let neighbors ← fateNeighbors b cellRow cellCol
  let state ← readCell b.gen cellRow cellCol
  if neighbors = 0 ∨ neighbors = 1 then some D
  else if neighbors = 2 then (if state = L then some L else some D)
  else if neighbors = 3 then some L
  else some D

/-- The method `Tick`: the next generation replaces `b.gen`. -/
def Tick (b : Board) : Option Board := do
  let nextGen ← buildGrid b.dim (b.gen.length : Int) (fate b)
  some { dim := b.dim, gen := nextGen }

/-- The conversion `string(r)` for one rune: an invalid code point becomes U+FFFD. -/
def runeToChar (r : Rune) : Char :=
  if 0 ≤ r ∧ Nat.isValidChar r.toNat then Char.ofNat r.toNat else Char.ofNat 0xFFFD

/-- The conversion `string(rs)` of a rune slice. -/
def runesToString (rs : List Rune) : GoString :=
  String.mk (rs.map runeToChar)

/-- The method `String`: each row followed by a newline. -/
def Board.String (b : Board) : Option GoString :=
  (upto (b.gen.length : Int)).foldlM (fun sb row => do
    let r ← sliceGet b.gen row
    some (sb ++ runesToString r ++ "\n")) ""

/-- The driver loop of `main` run for `n` rounds: `n` successive calls of `Tick`. -/
def tickN : Nat → Board → Option Board
  | 0, b => some b
  | n + 1, b => (Tick b).bind (tickN n)

/-! ## Specification vocabulary -/

/-- A grid of `dim` rows with `dim` cells each. -/
def Square (dim : Int) (g : Pattern) : Prop :=
  (g.length : Int) = dim ∧ ∀ row ∈ g, (row.length : Int) = dim

instance (dim : Int) (g : Pattern) : Decidable (Square dim g) := by
  unfold Square; infer_instance

/-- A structurally valid board: positive `dim` and a generation of `dim` rows of `dim` cells. -/
def Board.Valid (b : Board) : Prop :=
  1 ≤ b.dim ∧ Square b.dim b.gen

instance (b : Board) : Decidable b.Valid := by
  unfold Board.Valid; infer_instance

/-- A 2x2 test pattern with a live diagonal. -/
def diag2 : Pattern :=
  [[L, D],
   [D, L]]

/-- A 3x3 test generation: a horizontal row of three live cells. -/
def blinker3 : Pattern :=
  [[D, D, D],
   [L, L, L],
   [D, D, D]]

/-- The 2x2 block of four live cells. -/
def block : Pattern :=
  [[L, L],
   [L, L]]

/-- The offsets `(dr, dc)` in `{-1,0,1} x {-1,0,1}` other than `(0,0)`. -/
def offsets8 : List (Int × Int) :=
  (List.product [-1, 0, 1] [-1, 0, 1]).filter (fun o => o ≠ (0, 0))

/-- The neighbour count as the specification words it: the number of offsets other than
`(0,0)` whose wrapped cell `((r+dr+dim) mod dim, (c+dc+dim) mod dim)` is live. -/
def specLiveNeighbours (dim : Int) (g : Pattern) (r c : Int) : Nat :=
  offsets8.countP (fun o => readCell g ((r + o.1 + dim) % dim) ((c + o.2 + dim) % dim) = some L)

/-- The rule as the specification words it: live with three live neighbours, or with two
when the cell was live; dead in every other case. -/
def specRule (n : Nat) (old : Option Rune) : Rune :=
  if n = 3 ∨ (n = 2 ∧ old = some L) then L else D

/-! ## Closed forms of the loops of `fate` -/

/-- The value of `(x + dim) % dim` for `-1 ≤ x ≤ dim`. -/
def wrapIdx (dim x : Int) : Int :=
  if x < 0 then x + dim else if dim ≤ x then x - dim else x

/-- One when the cell `(r, c)` holds `L`, zero otherwise. -/
def liveBit (g : Pattern) (r c : Int) : Int :=
  if readCell g r c = some L then 1 else 0

/-- What the pass of the neighbour loop for the offset `(i, j)` adds to `neighbors`. -/
def nbrTerm (dim : Int) (g : Pattern) (r c i j : Int) : Int :=
  if r = wrapIdx dim (r + i) ∧ c = wrapIdx dim (c + j) then 0
  else liveBit g (wrapIdx dim (r + i)) (wrapIdx dim (c + j))

/-- The value of `neighbors` after the nine passes of the loop, in loop order. -/
def nbrCount (dim : Int) (g : Pattern) (r c : Int) : Int :=
  0 + nbrTerm dim g r c (-1) (-1) + nbrTerm dim g r c (-1) 0 + nbrTerm dim g r c (-1) 1
    + nbrTerm dim g r c 0 (-1) + nbrTerm dim g r c 0 0 + nbrTerm dim g r c 0 1
    + nbrTerm dim g r c 1 (-1) + nbrTerm dim g r c 1 0 + nbrTerm dim g r c 1 1

/-- The rule switch of `fate` (lines 183-194) as a function of `neighbors` and `state`. -/
def rule (neighbors : Int) (state : Rune) : Rune :=
  if neighbors = 0 ∨ neighbors = 1 then D
  else if neighbors = 2 then (if state = L then L else D)
  else if neighbors = 3 then L
  else D

/-- The rendered text as the specification words it: for each row in order, the row's cell
glyphs followed by one newline. -/
def specText (g : Pattern) : List Char :=
  (g.map (fun row => row.map runeToChar ++ ['\n'])).flatten

/-- A 3x3 generation of dead cells. -/
def dead3 : Pattern :=
  [[D, D, D],
   [D, D, D],
   [D, D, D]]

/-- Every cell of the grid is `L` (`'O'`) or `D` (`' '`). -/
def CellsLD (g : Pattern) : Prop :=
  ∀ row ∈ g, ∀ x ∈ row, x = L ∨ x = D

instance (g : Pattern) : Decidable (CellsLD g) := by
  unfold CellsLD; infer_instance

/-- The coordinates at which the neighbour loop of `fate` reads `b.gen`, in loop order: the
wrapped `(row, col)` of each offset `(i, j)` that the self-exclusion test does not skip. -/
def fateVisits (dim cellRow cellCol : Int) : List (Int × Int) :=
  ([-1, 0, 1].flatMap (fun i => [-1, 0, 1].map (fun j =>
    (Int.tmod (cellRow + i + dim) dim, Int.tmod (cellCol + j + dim) dim)))).filter
      (fun q => ¬ (cellRow = q.1 ∧ cellCol = q.2))

/-- The cells of a board of side `dim` other than `(r, c)`. -/
def otherCells (dim r c : Int) : List (Int × Int) :=
  ((upto dim).flatMap (fun r2 => (upto dim).map (fun c2 => (r2, c2)))).filter
    (fun q => q ≠ (r, c))

/-- The 3x3 generation with a single live cell at `(0,0)`. -/
def corner3 : Pattern :=
  [[L, D, D],
   [D, D, D],
   [D, D, D]]

/-! ## Live sets placed on a board -/

/-- The board holds exactly the live set `S` placed at offset `off` on both axes: the cell
`(r, c)` is `L` when `(r - off, c - off)` is in `S` and `D` otherwise. -/
def HoldsSet (b : Board) (off : Int) (S : List (Int × Int)) : Prop :=
  ∀ r c : Int, 0 ≤ r → r < b.dim → 0 ≤ c → c < b.dim →
    readCell b.gen r c = some (if (r - off, c - off) ∈ S then L else D)

/-- The number of the eight neighbours of `(x, y)` on the unbounded plane that are in `S`. -/
def planeCount (S : List (Int × Int)) (x y : Int) : Nat :=
  offsets8.countP (fun o => (x + o.1, y + o.2) ∈ S)

/-- Whether `(x, y)` is live after one step of the rule on the unbounded plane. -/
def planeNext (S : List (Int × Int)) (x y : Int) : Bool :=
  decide (planeCount S x y = 3 ∨ (planeCount S x y = 2 ∧ (x, y) ∈ S))

/-- The integers `lo, lo+1, ..., lo+n-1`. -/
def intRange (lo : Int) (n : Nat) : List Int :=
  (List.range n).map (fun (k : Nat) => lo + Int.ofNat k)

/-- The live cells `(row, col)` of the 2x2 block pattern. -/
def blockCells : List (Int × Int) :=
  [(0, 0), (0, 1), (1, 0), (1, 1)]

/-- The live cells `(row, col)` of the glider pattern. -/
def gliderCells0 : List (Int × Int) :=
  [(0, 1), (1, 2), (2, 0), (2, 1), (2, 2)]

/-- The glider after one step. -/
def gliderCells1 : List (Int × Int) :=
  [(1, 0), (1, 2), (2, 1), (2, 2), (3, 1)]

/-- The glider after two steps. -/
def gliderCells2 : List (Int × Int) :=
  [(1, 2), (2, 0), (2, 2), (3, 1), (3, 2)]

/-- The glider after three steps. -/
def gliderCells3 : List (Int × Int) :=
  [(1, 1), (2, 2), (2, 3), (3, 1), (3, 2)]

/-- The glider after four steps: `gliderCells0` moved by `(1, 1)`. -/
def gliderCells4 : List (Int × Int) :=
  [(1, 2), (2, 3), (3, 1), (3, 2), (3, 3)]

/-! ## The centring offsets of `NewBoard` -/

/-- The variable `pFirstRow = (dim - pDim) / 2` of `NewBoard` (line 86), with Go's division
rounding toward zero. -/
def pFirstRow (dim pDim : Int) : Int :=
  Int.tdiv (dim - pDim) 2

/-- The variable `pLastRow = pFirstRow + pDim` of `NewBoard` (line 88). -/
def pLastRow (dim pDim : Int) : Int :=
  pFirstRow dim pDim + pDim

/-- The variable `pFirstCol = pFirstRow` of `NewBoard` (line 91). -/
def pFirstCol (dim pDim : Int) : Int :=
  pFirstRow dim pDim

/-- The variable `pLastCol = pFirstCol + pDim` of `NewBoard` (line 93). -/
def pLastCol (dim pDim : Int) : Int :=
  pFirstCol dim pDim + pDim

/-- The bounds test of `NewBoard` (line 101) at `(row, col)`. -/
def boundsTest (dim pDim row col : Int) : Prop :=
  row ≥ pFirstCol dim pDim ∧ row < pLastCol dim pDim ∧
    col ≥ pFirstRow dim pDim ∧ col < pLastRow dim pDim

instance (dim pDim row col : Int) : Decidable (boundsTest dim pDim row col) := by
  unfold boundsTest; infer_instance

/-- The grid `gs` is the grid `g` moved by `(a, b)` on the torus of side `dim`:
`gs[r][c] = g[(r - a) mod dim][(c - b) mod dim]`. -/
def IsShift (dim a b : Int) (g gs : Pattern) : Prop :=
  ∀ r c : Int, 0 ≤ r → r < dim → 0 ≤ c → c < dim →
    readCell gs r c = readCell g ((r - a) % dim) ((c - b) % dim)

/-- A 3x3 test generation with four live cells in the top-left corner. -/
def patch3 : Pattern :=
  [[L, L, D],
   [L, L, D],
   [D, D, D]]

/-- The grid `patch3` moved by `(1, 2)` on the torus of side 3. -/
def patch3Shifted : Pattern :=
  [[D, D, D],
   [L, D, L],
   [L, D, L]]

/-- A 1x1 generation whose only cell is live. -/
def live1 : Pattern :=
  [[L]]

/-- A 2x2 test generation with three live cells. -/
def three2 : Pattern :=
  [[L, L],
   [L, D]]

/-! ## Slices and the grid-building loops -/

theorem sliceGet_natCast {α : Type} (xs : List α) (k : Nat) :
    sliceGet xs (k : Int) = xs[k]? := by
  unfold sliceGet
  by_cases h : k < xs.length
  · simp [h]
  · have h2 : xs.length ≤ k := Nat.le_of_not_lt h
    simp [h, List.getElem?_eq_none h2]

theorem sliceSet_natCast {α : Type} (xs : List α) (k : Nat) (v : α) (h : k < xs.length) :
    sliceSet xs (k : Int) v = some (xs.set k v) := by
  unfold sliceSet
  simp [h]

theorem upto_natCast (n : Nat) : upto (n : Int) = (List.range n).map Int.ofNat := by
  simp [upto]

theorem foldlM_range_succ {β : Type} (f : β → Nat → Option β) (k : Nat) (init : β) :
    (List.range (k + 1)).foldlM f init = ((List.range k).foldlM f init).bind (fun s => f s k) := by
  rw [List.range_succ, List.foldlM_append]
  simp only [List.foldlM_cons, List.foldlM_nil]
  cases (List.range k).foldlM f init with
  | none => rfl
  | some s => simp only [bind, Option.bind]; cases f s k <;> rfl


theorem writeCell_natCast (g : Pattern) (row col : Nat) (v : Rune) (rw : List Rune)
    (hrow : g[row]? = some rw) (hcol : col < rw.length) :
    writeCell g (row : Int) (col : Int) v = some (g.set row (rw.set col v)) := by
  have hlt : row < g.length := by
    by_contra hcon
    rw [List.getElem?_eq_none (Nat.le_of_not_lt hcon)] at hrow
    cases hrow
  unfold writeCell
  simp only [bind, Option.bind, sliceGet_natCast, hrow, sliceSet_natCast _ _ _ hcol,
    sliceSet_natCast _ _ _ hlt]

/-- Inner loop of `buildGrid` over the first `k` columns of one row. -/
theorem buildGrid_inner (cell : Int → Int → Option Rune) (F : Nat → Nat → Rune) (N row : Nat)
    (hrow : row < N)
    (hF : ∀ c, c < N → cell (row : Int) (c : Int) = some (F row c))
    (k : Nat) (hk : k ≤ N) (g : Pattern) (hg : g.length = N)
    (rw0 : List Rune) (hrw0 : g[row]? = some rw0) (hlen : rw0.length = N) :
    ∃ g2 rw2, (List.range k).foldlM (fun gen col =>
        (cell (row : Int) (Int.ofNat col)).bind (fun v => writeCell gen (row : Int) (Int.ofNat col) v)) g
          = some g2
      ∧ g2.length = N ∧ (∀ r, r ≠ row → g2[r]? = g[r]?)
      ∧ g2[row]? = some rw2 ∧ rw2.length = N ∧ ∀ c, c < k → rw2[c]? = some (F row c) := by
  induction k with
  | zero =>
    refine ⟨g, rw0, rfl, hg, fun _ _ => rfl, hrw0, hlen, ?_⟩
    intro c hc; omega
  | succ k ih =>
    obtain ⟨g1, rw1, h1, hl1, ho1, hr1, hrl1, hc1⟩ := ih (by omega)
    rw [foldlM_range_succ, h1]
    have hk' : k < N := by omega
    simp only [Option.bind, Int.ofNat_eq_coe, hF k hk']
    rw [writeCell_natCast g1 row k _ rw1 hr1 (by omega)]
    refine ⟨_, rw1.set k (F row k), rfl, by simp [hl1], ?_, ?_, by simp [hrl1], ?_⟩
    · intro r hr
      rw [List.getElem?_set_ne (Ne.symm hr)]
      exact ho1 r hr
    · rw [List.getElem?_set_self (by omega)]
    · intro c hc
      by_cases hck : c = k
      · subst hck; rw [List.getElem?_set_self (by omega)]
      · rw [List.getElem?_set_ne (Ne.symm hck)]
        exact hc1 c (by omega)

/-- The two loops of `buildGrid` on a side `N` fill every cell with the value of `cell`. -/
theorem buildGrid_nat (cell : Int → Int → Option Rune) (F : Nat → Nat → Rune) (N : Nat)
    (hF : ∀ r c, r < N → c < N → cell (r : Int) (c : Int) = some (F r c)) :
    ∃ g, buildGrid (N : Int) (N : Int) cell = some g ∧ g.length = N ∧
      ∀ r, r < N → ∃ rw, g[r]? = some rw ∧ rw.length = N ∧
        ∀ c, c < N → rw[c]? = some (F r c) := by
  have outer : ∀ k, k ≤ N → ∃ g,
      (List.range k).foldlM (fun gen row =>
        (make (N : Int) (0 : Rune)).bind (fun fresh =>
          (sliceSet gen (Int.ofNat row) fresh).bind (fun gen =>
            (List.range N).foldlM (fun gen col =>
              (cell (Int.ofNat row) (Int.ofNat col)).bind
                (fun v => writeCell gen (Int.ofNat row) (Int.ofNat col) v)) gen)))
        (List.replicate N ([] : List Rune)) = some g ∧ g.length = N ∧
      ∀ r, r < k → ∃ rw, g[r]? = some rw ∧ rw.length = N ∧
        ∀ c, c < N → rw[c]? = some (F r c) := by
    intro k
    induction k with
    | zero =>
      intro _
      exact ⟨_, rfl, by simp, fun r hr => by omega⟩
    | succ k ih =>
      intro hk
      obtain ⟨g1, h1, hl1, hr1⟩ := ih (by omega)
      rw [foldlM_range_succ, h1]
      have hk' : k < N := by omega
      have hmake : make (N : Int) (0 : Rune) = some (List.replicate N 0) := by
        simp [make]
      simp only [Option.bind, hmake, Int.ofNat_eq_coe]
      rw [sliceSet_natCast _ _ _ (by omega)]
      simp only []
      obtain ⟨g2, rw2, h2, hl2, ho2, hrw2, hrl2, hc2⟩ :=
        buildGrid_inner cell F N k hk' (fun c hc => hF k c hk' hc) N (Nat.le_refl N)
          (g1.set k (List.replicate N 0)) (by simp [hl1]) (List.replicate N 0)
          (by rw [List.getElem?_set_self (by omega)]) (by simp)
      simp only [Option.bind, Int.ofNat_eq_coe] at h2
      refine ⟨g2, h2, hl2, ?_⟩
      intro r hr
      by_cases hrk : r = k
      · subst hrk
        exact ⟨rw2, hrw2, hrl2, hc2⟩
      · obtain ⟨rw, hrw, hrl, hrc⟩ := hr1 r (by omega)
        refine ⟨rw, ?_, hrl, hrc⟩
        rw [ho2 r hrk, List.getElem?_set_ne (Ne.symm hrk)]
        exact hrw
  obtain ⟨g, hg, hl, hr⟩ := outer N (Nat.le_refl N)
  refine ⟨g, ?_, hl, hr⟩
  have hmake : make (N : Int) ([] : List Rune) = some (List.replicate N []) := by
    simp [make]
  unfold buildGrid
  rw [upto_natCast]
  simp only [bind, Option.bind, hmake, List.foldlM_map]
  exact hg

theorem readCell_natCast (g : Pattern) (r c : Nat) :
    readCell g (r : Int) (c : Int) = (g[r]?).bind (fun rw => rw[c]?) := by
  unfold readCell
  simp only [bind, sliceGet_natCast]

/-- In a square grid every in-range cell can be read. -/
theorem readCell_of_square (dim : Int) (g : Pattern) (hs : Square dim g) (r c : Int)
    (hr0 : 0 ≤ r) (hr : r < dim) (hc0 : 0 ≤ c) (hc : c < dim) :
    ∃ v, readCell g r c = some v := by
  obtain ⟨hl, hrows⟩ := hs
  obtain ⟨rn, rfl⟩ := Int.eq_ofNat_of_zero_le hr0
  obtain ⟨cn, rfl⟩ := Int.eq_ofNat_of_zero_le hc0
  have hrn : rn < g.length := by omega
  have hmem : g[rn] ∈ g := List.getElem_mem hrn
  have hcn : cn < (g[rn]).length := by
    have := hrows _ hmem
    omega
  refine ⟨(g[rn])[cn], ?_⟩
  rw [readCell_natCast, List.getElem?_eq_getElem hrn]
  simp [Option.bind, List.getElem?_eq_getElem hcn]

/-- Two square grids of the same side with the same cells are equal. -/
theorem square_ext (dim : Int) (g g2 : Pattern) (hs : Square dim g) (hs2 : Square dim g2)
    (h : ∀ r c : Int, 0 ≤ r → r < dim → 0 ≤ c → c < dim → readCell g r c = readCell g2 r c) :
    g = g2 := by
  obtain ⟨hl, hrows⟩ := hs
  obtain ⟨hl2, hrows2⟩ := hs2
  apply List.ext_getElem (by omega)
  intro rn h1 h2
  have e1 : (g[rn]).length = dim.toNat := by
    have := hrows _ (List.getElem_mem h1); omega
  have e2 : (g2[rn]).length = dim.toNat := by
    have := hrows2 _ (List.getElem_mem h2); omega
  apply List.ext_getElem (by omega)
  intro cn h3 h4
  have := h (rn : Int) (cn : Int) (by omega) (by omega) (by omega) (by omega)
  rw [readCell_natCast, readCell_natCast, List.getElem?_eq_getElem h1,
    List.getElem?_eq_getElem h2] at this
  simpa [Option.bind, List.getElem?_eq_getElem h3, List.getElem?_eq_getElem h4] using this

/-- The loops of `buildGrid` on a side `dim ≥ 0` succeed and store `cell row col` in every cell. -/
theorem buildGrid_spec (dim : Int) (hd : 0 ≤ dim) (cell : Int → Int → Option Rune)
    (F : Int → Int → Rune)
    (hF : ∀ r c : Int, 0 ≤ r → r < dim → 0 ≤ c → c < dim → cell r c = some (F r c)) :
    ∃ g, buildGrid dim dim cell = some g ∧ Square dim g ∧
      ∀ r c : Int, 0 ≤ r → r < dim → 0 ≤ c → c < dim → readCell g r c = some (F r c) := by
  obtain ⟨N, rfl⟩ := Int.eq_ofNat_of_zero_le hd
  obtain ⟨g, hg, hl, hrows⟩ := buildGrid_nat cell (fun r c => F (r : Int) (c : Int)) N
    (fun r c hr hc => hF r c (by omega) (by omega) (by omega) (by omega))
  refine ⟨g, hg, ⟨by omega, ?_⟩, ?_⟩
  · intro row hmem
    obtain ⟨i, hi, rfl⟩ := List.getElem_of_mem hmem
    obtain ⟨rw, hrw, hrl, _⟩ := hrows i (by omega)
    rw [List.getElem?_eq_getElem hi] at hrw
    cases hrw
    omega
  · intro r c hr0 hr hc0 hc
    obtain ⟨rn, rfl⟩ := Int.eq_ofNat_of_zero_le hr0
    obtain ⟨cn, rfl⟩ := Int.eq_ofNat_of_zero_le hc0
    obtain ⟨rw, hrw, hrl, hcs⟩ := hrows rn (by omega)
    rw [readCell_natCast, hrw]
    simpa [Option.bind] using hcs cn (by omega)


/-- A successful read is in range. -/
theorem readCell_some_range (g : Pattern) (r c : Int) (v : Rune) (h : readCell g r c = some v) :
    0 ≤ r ∧ r < (g.length : Int) := by
  unfold readCell sliceGet at h
  by_cases hr : 0 ≤ r ∧ r < (g.length : Int)
  · exact hr
  · simp [hr] at h

/-- The bounds test of `NewBoard` keeps the pattern read in range: on a square pattern the
cell value is always defined. -/
theorem newBoardCell_total (dim : Int) (p : Pattern) (hp : Square (p.length : Int) p)
    (row col : Int) : ∃ v, newBoardCell dim p row col = some v := by
  unfold newBoardCell
  simp only []
  split
  · next h =>
    exact readCell_of_square _ p hp _ _ (by omega) (by omega) (by omega) (by omega)
  · exact ⟨D, rfl⟩

/-- The function `NewBoard` on a side `dim ≥ 0` and a square pattern succeeds; the board is square of side
`dim` and holds `newBoardCell` in every cell. -/
theorem NewBoard_spec (dim : Int) (hd : 0 ≤ dim) (p : Pattern) (hp : Square (p.length : Int) p) :
    ∃ b, NewBoard dim p = some b ∧ b.dim = dim ∧ Square dim b.gen ∧
      ∀ r c : Int, 0 ≤ r → r < dim → 0 ≤ c → c < dim →
        readCell b.gen r c = newBoardCell dim p r c := by
  obtain ⟨g, hg, hsq, hcell⟩ := buildGrid_spec dim hd (newBoardCell dim p)
    (fun r c => (newBoardCell dim p r c).getD D)
    (fun r c _ _ _ _ => by
      obtain ⟨v, hv⟩ := newBoardCell_total dim p hp r c
      simp [hv])
  refine ⟨⟨dim, g⟩, ?_, rfl, hsq, ?_⟩
  · simp [NewBoard, hg, bind]
  · intro r c hr0 hr hc0 hc
    obtain ⟨v, hv⟩ := newBoardCell_total dim p hp r c
    rw [hcell r c hr0 hr hc0 hc, hv]
    rfl


/-- C2: for `dim ≥ 1` and a square pattern of side `pDim ≤ dim`, `NewBoard(dim, p)` returns a
board whose cell `(row, col)` is `p[row-offset][col-offset]` when both coordinates lie in
`[offset, offset+pDim)`, with `offset = (dim - pDim) / 2`, and `D` otherwise; for `dim = 25`
and the glider the live cells are exactly the positions `(11+dr, 11+dc)` of the live glider
cells `(dr, dc)` and every other cell is `D`. -/
theorem NewBoard_centres_pattern :
    (∀ (dim : Int) (p : Pattern), 1 ≤ dim → Square (p.length : Int) p → (p.length : Int) ≤ dim →
      ∃ b, NewBoard dim p = some b ∧
        ∀ row col : Int, 0 ≤ row → row < dim → 0 ≤ col → col < dim →
          ((dim - p.length) / 2 ≤ row ∧ row < (dim - p.length) / 2 + p.length ∧
            (dim - p.length) / 2 ≤ col ∧ col < (dim - p.length) / 2 + p.length →
              ∃ v, readCell p (row - (dim - p.length) / 2) (col - (dim - p.length) / 2) = some v ∧
                readCell b.gen row col = some v) ∧
          (¬ ((dim - p.length) / 2 ≤ row ∧ row < (dim - p.length) / 2 + p.length ∧
            (dim - p.length) / 2 ≤ col ∧ col < (dim - p.length) / 2 + p.length) →
              readCell b.gen row col = some D)) ∧
    (∃ b, NewBoard 25 glider = some b ∧
      ∀ row col : Int, 0 ≤ row → row < 25 → 0 ≤ col → col < 25 →
        (readCell b.gen row col = some L ↔
          ∃ dr dc : Int, readCell glider dr dc = some L ∧ row = 11 + dr ∧ col = 11 + dc) ∧
        (readCell b.gen row col ≠ some L → readCell b.gen row col = some D)) := by
  have general : ∀ (dim : Int) (p : Pattern), 1 ≤ dim → Square (p.length : Int) p →
      (p.length : Int) ≤ dim →
      ∃ b, NewBoard dim p = some b ∧
        ∀ row col : Int, 0 ≤ row → row < dim → 0 ≤ col → col < dim →
          ((dim - p.length) / 2 ≤ row ∧ row < (dim - p.length) / 2 + p.length ∧
            (dim - p.length) / 2 ≤ col ∧ col < (dim - p.length) / 2 + p.length →
              ∃ v, readCell p (row - (dim - p.length) / 2) (col - (dim - p.length) / 2) = some v ∧
                readCell b.gen row col = some v) ∧
          (¬ ((dim - p.length) / 2 ≤ row ∧ row < (dim - p.length) / 2 + p.length ∧
            (dim - p.length) / 2 ≤ col ∧ col < (dim - p.length) / 2 + p.length) →
              readCell b.gen row col = some D) := by
    intro dim p hdim hp hle
    obtain ⟨b, hb, _, _, hcell⟩ := NewBoard_spec dim (by omega) p hp
    refine ⟨b, hb, ?_⟩
    intro row col hr0 hr hc0 hc
    have hdiv : Int.tdiv (dim - (p.length : Int)) 2 = (dim - (p.length : Int)) / 2 :=
      Int.tdiv_eq_ediv (by omega) (by decide)
    have hval := hcell row col hr0 hr hc0 hc
    unfold newBoardCell at hval
    simp only [hdiv] at hval
    constructor
    · intro hin
      rw [if_pos (by omega)] at hval
      obtain ⟨v, hv⟩ := readCell_of_square _ p hp (row - (dim - p.length) / 2)
        (col - (dim - p.length) / 2) (by omega) (by omega) (by omega) (by omega)
      exact ⟨v, hv, by rw [hval, hv]⟩
    · intro hout
      rw [if_neg (by omega)] at hval
      exact hval
  refine ⟨general, ?_⟩
  obtain ⟨b, hb, hcell⟩ := general 25 glider (by decide) (by decide) (by decide)
  refine ⟨b, hb, ?_⟩
  intro row col hr0 hr hc0 hc
  have hoff : ((25 : Int) - (glider.length : Int)) / 2 = 11 := by decide
  have hlen : ((glider.length : Nat) : Int) = 3 := by decide
  obtain ⟨hin, hout⟩ := hcell row col hr0 hr hc0 hc
  rw [hoff, hlen] at hin hout
  by_cases hw : (11 : Int) ≤ row ∧ row < 11 + 3 ∧ 11 ≤ col ∧ col < 11 + 3
  · obtain ⟨v, hv, hbv⟩ := hin hw
    have hvLD : v = L ∨ v = D := by
      obtain ⟨h1, h2, h3, h4⟩ := hw
      interval_cases row <;> interval_cases col <;> simp [glider, readCell, sliceGet, bind] at hv <;>
        simp [← hv]
    constructor
    · constructor
      · intro hl
        exact ⟨row - 11, col - 11, by rw [hv, ← hbv, hl], by omega, by omega⟩
      · rintro ⟨dr, dc, hg, rfl, rfl⟩
        have e1 : 11 + dr - 11 = dr := by omega
        have e2 : 11 + dc - 11 = dc := by omega
        rw [e1, e2] at hv
        rw [hbv, ← hv, hg]
    · intro hne
      rcases hvLD with h | h
      · exact absurd (by rw [hbv, h]) hne
      · rw [hbv, h]
  · have hD := hout hw
    constructor
    · constructor
      · intro hl
        rw [hD] at hl
        exact absurd (Option.some.inj hl) (by decide)
      · rintro ⟨dr, dc, hg, rfl, rfl⟩
        exfalso
        have hrange := readCell_some_range glider dr dc L hg
        have hcol : 0 ≤ dc ∧ dc < 3 := by
          by_contra hcon
          obtain ⟨h1, h2⟩ := hrange
          have h3 : ((glider.length : Nat) : Int) = 3 := by decide
          rw [h3] at h2
          interval_cases dr <;> simp [glider, readCell, sliceGet, bind] at hg <;> omega
        omega
    · intro _
      exact hD

/-- C2 at `dim = 4` and the 2x2 diagonal pattern. -/
theorem NewBoard_centres_pattern_witness :
    ∃ b, NewBoard 4 diag2 = some b ∧
      ∀ row col : Int, 0 ≤ row → row < 4 → 0 ≤ col → col < 4 →
        (((4 : Int) - diag2.length) / 2 ≤ row ∧ row < ((4 : Int) - diag2.length) / 2 + diag2.length ∧
          ((4 : Int) - diag2.length) / 2 ≤ col ∧ col < ((4 : Int) - diag2.length) / 2 + diag2.length →
            ∃ v, readCell diag2 (row - ((4 : Int) - diag2.length) / 2)
                (col - ((4 : Int) - diag2.length) / 2) = some v ∧
              readCell b.gen row col = some v) ∧
        (¬ (((4 : Int) - diag2.length) / 2 ≤ row ∧ row < ((4 : Int) - diag2.length) / 2 + diag2.length ∧
          ((4 : Int) - diag2.length) / 2 ≤ col ∧ col < ((4 : Int) - diag2.length) / 2 + diag2.length) →
            readCell b.gen row col = some D) :=
  NewBoard_centres_pattern.1 4 diag2 (by decide) (by decide) (by decide)

/-- Go's `%` on the wrapped index of `fate`, in closed form. -/
theorem tmod_wrap (dim r i : Int) (h0 : 0 ≤ r) (h1 : r < dim) (hi : -1 ≤ i) (hi2 : i ≤ 1) :
    Int.tmod (r + i + dim) dim = wrapIdx dim (r + i) := by
  rw [Int.tmod_eq_emod (by omega) (by omega)]
  unfold wrapIdx
  split
  · exact Int.emod_eq_of_lt (by omega) (by omega)
  · split
    · have e : r + i + dim = (r + i - dim) + dim * 2 := by ring
      rw [e, Int.add_mul_emod_self_left]
      exact Int.emod_eq_of_lt (by omega) (by omega)
    · have e : r + i + dim = (r + i) + dim * 1 := by ring
      rw [e, Int.add_mul_emod_self_left]
      exact Int.emod_eq_of_lt (by omega) (by omega)

/-- The mathematical `mod` on the wrapped index, in closed form. -/
theorem emod_wrap (dim r i : Int) (h0 : 0 ≤ r) (h1 : r < dim) (hi : -1 ≤ i) (hi2 : i ≤ 1) :
    (r + i + dim) % dim = wrapIdx dim (r + i) := by
  rw [← Int.tmod_eq_emod (by omega) (by omega)]
  exact tmod_wrap dim r i h0 h1 hi hi2

/-- Every index computed by `fate` lies in `[0, dim)`. -/
theorem wrapIdx_range (dim r i : Int) (h0 : 0 ≤ r) (h1 : r < dim) (hi : -1 ≤ i) (hi2 : i ≤ 1) :
    0 ≤ wrapIdx dim (r + i) ∧ wrapIdx dim (r + i) < dim := by
  unfold wrapIdx
  split
  · omega
  · split <;> omega

/-- One pass of the neighbour loop on a valid board. -/
theorem fateStep_eq (b : Board) (hv : b.Valid) (r c : Int)
    (hr0 : 0 ≤ r) (hr : r < b.dim) (hc0 : 0 ≤ c) (hc : c < b.dim)
    (i j : Int) (hi : -1 ≤ i) (hi2 : i ≤ 1) (hj : -1 ≤ j) (hj2 : j ≤ 1) (n : Int) :
    fateStep b r c i j n = some (n + nbrTerm b.dim b.gen r c i j) := by
  obtain ⟨hd, hsq⟩ := hv
  unfold fateStep nbrTerm
  rw [if_neg (by omega)]
  simp only [tmod_wrap b.dim r i hr0 hr hi hi2, tmod_wrap b.dim c j hc0 hc hj hj2]
  split
  · simp
  · obtain ⟨hw1, hw2⟩ := wrapIdx_range b.dim r i hr0 hr hi hi2
    obtain ⟨hw3, hw4⟩ := wrapIdx_range b.dim c j hc0 hc hj hj2
    obtain ⟨v, hv⟩ := readCell_of_square b.dim b.gen hsq _ _ hw1 hw2 hw3 hw4
    simp only [hv, liveBit, bind, Option.bind]
    by_cases hL : v = L
    · simp [hL]
    · simp [hL]

/-- The neighbour loop on a valid board: it does not fail and leaves `nbrCount`. -/
theorem fateNeighbors_eq (b : Board) (hv : b.Valid) (r c : Int)
    (hr0 : 0 ≤ r) (hr : r < b.dim) (hc0 : 0 ≤ c) (hc : c < b.dim) :
    fateNeighbors b r c = some (nbrCount b.dim b.gen r c) := by
  unfold fateNeighbors nbrCount
  simp only [List.foldlM_cons, List.foldlM_nil, bind, Option.bind, pure,
    fateStep_eq b hv r c hr0 hr hc0 hc (-1) (-1) (by decide) (by decide) (by decide) (by decide),
    fateStep_eq b hv r c hr0 hr hc0 hc (-1) 0 (by decide) (by decide) (by decide) (by decide),
    fateStep_eq b hv r c hr0 hr hc0 hc (-1) 1 (by decide) (by decide) (by decide) (by decide),
    fateStep_eq b hv r c hr0 hr hc0 hc 0 (-1) (by decide) (by decide) (by decide) (by decide),
    fateStep_eq b hv r c hr0 hr hc0 hc 0 0 (by decide) (by decide) (by decide) (by decide),
    fateStep_eq b hv r c hr0 hr hc0 hc 0 1 (by decide) (by decide) (by decide) (by decide),
    fateStep_eq b hv r c hr0 hr hc0 hc 1 (-1) (by decide) (by decide) (by decide) (by decide),
    fateStep_eq b hv r c hr0 hr hc0 hc 1 0 (by decide) (by decide) (by decide) (by decide),
    fateStep_eq b hv r c hr0 hr hc0 hc 1 1 (by decide) (by decide) (by decide) (by decide)]

/-- The method `fate` on a valid board: it does not fail and returns the rule applied to the
neighbour count and the cell's state. -/
theorem fate_eq (b : Board) (hv : b.Valid) (r c : Int)
    (hr0 : 0 ≤ r) (hr : r < b.dim) (hc0 : 0 ≤ c) (hc : c < b.dim) :
    ∃ state, readCell b.gen r c = some state ∧
      fate b r c = some (rule (nbrCount b.dim b.gen r c) state) := by
  obtain ⟨state, hs⟩ := readCell_of_square b.dim b.gen hv.2 r c hr0 hr hc0 hc
  refine ⟨state, hs, ?_⟩
  unfold fate rule
  simp only [fateNeighbors_eq b hv r c hr0 hr hc0 hc, hs, bind, Option.bind]
  split_ifs <;> rfl

/-- The method `Tick` on a square board: it does not fail, keeps `dim` and the shape, and
stores `fate` of the old generation in every cell. -/
theorem Tick_spec (b : Board) (hsq : Square b.dim b.gen) :
    ∃ b2, Tick b = some b2 ∧ b2.dim = b.dim ∧ Square b.dim b2.gen ∧
      ∀ r c : Int, 0 ≤ r → r < b.dim → 0 ≤ c → c < b.dim →
        readCell b2.gen r c = fate b r c := by
  have hd : 0 ≤ b.dim := by have := hsq.1; omega
  have htot : ∀ r c : Int, 0 ≤ r → r < b.dim → 0 ≤ c → c < b.dim →
      fate b r c = some ((fate b r c).getD D) := by
    intro r c hr0 hr hc0 hc
    obtain ⟨s, _, hf⟩ := fate_eq b ⟨by omega, hsq⟩ r c hr0 hr hc0 hc
    rw [hf]; rfl
  obtain ⟨g, hg, hsq2, hcell⟩ := buildGrid_spec b.dim hd (fate b)
    (fun r c => (fate b r c).getD D) htot
  refine ⟨⟨b.dim, g⟩, ?_, rfl, hsq2, ?_⟩
  · unfold Tick
    rw [hsq.1, hg]
    rfl
  · intro r c hr0 hr hc0 hc
    rw [hcell r c hr0 hr hc0 hc, ← htot r c hr0 hr hc0 hc]


theorem offsets8_eq : offsets8 =
    [(-1, -1), (-1, 0), (-1, 1), (0, -1), (0, 1), (1, -1), (1, 0), (1, 1)] := by
  decide

/-- On a side of at least two, the self-exclusion test of `fate` holds at offset `(0,0)` only. -/
theorem nbrTerm_eq (dim : Int) (g : Pattern) (r c : Int) (hdim : 2 ≤ dim)
    (hr0 : 0 ≤ r) (hr : r < dim) (hc0 : 0 ≤ c) (hc : c < dim)
    (i j : Int) (hi : -1 ≤ i) (hi2 : i ≤ 1) (hj : -1 ≤ j) (hj2 : j ≤ 1) :
    nbrTerm dim g r c i j =
      if i = 0 ∧ j = 0 then 0 else liveBit g ((r + i + dim) % dim) ((c + j + dim) % dim) := by
  rw [emod_wrap dim r i hr0 hr hi hi2, emod_wrap dim c j hc0 hc hj hj2]
  unfold nbrTerm
  have key : (r = wrapIdx dim (r + i) ∧ c = wrapIdx dim (c + j)) ↔ (i = 0 ∧ j = 0) := by
    unfold wrapIdx
    split_ifs <;> omega
  simp only [key]

/-- On a side of at least two, the count left by the loop of `fate` is the specified count. -/
theorem nbrCount_eq_spec (dim : Int) (g : Pattern) (r c : Int) (hdim : 2 ≤ dim)
    (hr0 : 0 ≤ r) (hr : r < dim) (hc0 : 0 ≤ c) (hc : c < dim) :
    nbrCount dim g r c = (specLiveNeighbours dim g r c : Int) := by
  unfold nbrCount specLiveNeighbours
  rw [offsets8_eq]
  simp only [List.countP_cons, List.countP_nil,
    nbrTerm_eq dim g r c hdim hr0 hr hc0 hc (-1) (-1) (by decide) (by decide) (by decide) (by decide),
    nbrTerm_eq dim g r c hdim hr0 hr hc0 hc (-1) 0 (by decide) (by decide) (by decide) (by decide),
    nbrTerm_eq dim g r c hdim hr0 hr hc0 hc (-1) 1 (by decide) (by decide) (by decide) (by decide),
    nbrTerm_eq dim g r c hdim hr0 hr hc0 hc 0 (-1) (by decide) (by decide) (by decide) (by decide),
    nbrTerm_eq dim g r c hdim hr0 hr hc0 hc 0 0 (by decide) (by decide) (by decide) (by decide),
    nbrTerm_eq dim g r c hdim hr0 hr hc0 hc 0 1 (by decide) (by decide) (by decide) (by decide),
    nbrTerm_eq dim g r c hdim hr0 hr hc0 hc 1 (-1) (by decide) (by decide) (by decide) (by decide),
    nbrTerm_eq dim g r c hdim hr0 hr hc0 hc 1 0 (by decide) (by decide) (by decide) (by decide),
    nbrTerm_eq dim g r c hdim hr0 hr hc0 hc 1 1 (by decide) (by decide) (by decide) (by decide),
    liveBit, decide_eq_true_eq]
  push_cast
  simp
  ring

/-- On a side of one every wrapped offset is the cell itself and is skipped. -/
theorem nbrCount_dim_one (g : Pattern) : nbrCount 1 g 0 0 = 0 := by
  simp [nbrCount, nbrTerm, wrapIdx]

theorem specLiveNeighbours_dim_one (g : Pattern) :
    specLiveNeighbours 1 g 0 0 = if readCell g 0 0 = some L then 8 else 0 := by
  unfold specLiveNeighbours
  rw [offsets8_eq]
  simp only [List.countP_cons, List.countP_nil, Int.emod_one]
  split_ifs <;> simp_all

/-- The rule switch of `fate` on the loop's count agrees with the specified rule on the
specified count, on every side `dim ≥ 1`. -/
theorem rule_eq_specRule (dim : Int) (g : Pattern) (r c : Int) (hdim : 1 ≤ dim)
    (hr0 : 0 ≤ r) (hr : r < dim) (hc0 : 0 ≤ c) (hc : c < dim) (state : Rune)
    (hs : readCell g r c = some state) :
    rule (nbrCount dim g r c) state =
      if specLiveNeighbours dim g r c = 3 ∨
        (specLiveNeighbours dim g r c = 2 ∧ readCell g r c = some L) then L else D := by
  by_cases h1 : dim = 1
  · subst h1
    have hr1 : r = 0 := by omega
    have hc1 : c = 0 := by omega
    subst hr1 hc1
    rw [nbrCount_dim_one, specLiveNeighbours_dim_one]
    split_ifs <;> simp_all [rule]
  · rw [nbrCount_eq_spec dim g r c (by omega) hr0 hr hc0 hc, hs]
    unfold rule
    generalize specLiveNeighbours dim g r c = n
    simp only [Option.some.injEq]
    have hcast : ∀ k : Nat, ((n : Int) = (k : Int)) ↔ n = k := fun k => Int.ofNat_inj
    have h0 := hcast 0
    have h1 := hcast 1
    have h2 := hcast 2
    have h3 := hcast 3
    simp only [Nat.cast_zero, Nat.cast_one, Nat.cast_ofNat] at h0 h1 h2 h3
    simp only [h0, h1, h2, h3]
    by_cases e3 : n = 3
    · subst e3; simp
    · by_cases e2 : n = 2
      · subst e2; simp
      · by_cases e0 : n = 0
        · subst e0; simp
        · by_cases e1 : n = 1
          · subst e1; simp
          · simp [e0, e1, e2, e3]

/-- C1: on a structurally valid board, after one `Tick` the cell `(r, c)` is `L` when the
number `n` of offsets other than `(0,0)` whose wrapped cell of the old generation is live is
3, or is 2 and the old cell `(r, c)` was live, and is `D` in every other case. -/
theorem Tick_cell_rule (b : Board) (hv : b.Valid) (r c : Int)
    (hr0 : 0 ≤ r) (hr : r < b.dim) (hc0 : 0 ≤ c) (hc : c < b.dim) :
    ∃ b2, Tick b = some b2 ∧
      readCell b2.gen r c = some
        (if specLiveNeighbours b.dim b.gen r c = 3 ∨
            (specLiveNeighbours b.dim b.gen r c = 2 ∧ readCell b.gen r c = some L)
          then L else D) := by
  obtain ⟨b2, hb2, _, _, hcell⟩ := Tick_spec b hv.2
  obtain ⟨state, hs, hf⟩ := fate_eq b hv r c hr0 hr hc0 hc
  refine ⟨b2, hb2, ?_⟩
  rw [hcell r c hr0 hr hc0 hc, hf, rule_eq_specRule b.dim b.gen r c hv.1 hr0 hr hc0 hc state hs]

/-- C1 on a 3x3 board holding a blinker, at the centre cell. -/
theorem Tick_cell_rule_witness :
    (⟨3, blinker3⟩ : Board).Valid ∧
    ∃ b2, Tick ⟨3, blinker3⟩ = some b2 ∧
      readCell b2.gen 1 1 = some
        (if specLiveNeighbours 3 blinker3 1 1 = 3 ∨
            (specLiveNeighbours 3 blinker3 1 1 = 2 ∧ readCell blinker3 1 1 = some L)
          then L else D) :=
  ⟨by decide, Tick_cell_rule ⟨3, blinker3⟩ (by decide) 1 1 (by decide) (by decide) (by decide)
    (by decide)⟩


theorem specText_append (g : Pattern) (row : List Rune) :
    specText (g ++ [row]) = specText g ++ (row.map runeToChar ++ ['\n']) := by
  simp [specText]

/-- The method `String` never fails and returns the rows' glyphs, each row followed by a
newline, in row order. -/
theorem String_eq (b : Board) : Board.String b = some (String.mk (specText b.gen)) := by
  have inv : ∀ k, k ≤ b.gen.length →
      (List.range k).foldlM (fun sb row =>
        (sliceGet b.gen (Int.ofNat row)).bind (fun r =>
          some (sb ++ runesToString r ++ "\n"))) ("" : GoString)
        = some (String.mk (specText (b.gen.take k))) := by
    intro k
    induction k with
    | zero => intro _; rfl
    | succ k ih =>
      intro hk
      rw [foldlM_range_succ, ih (by omega)]
      have hlt : k < b.gen.length := by omega
      simp only [Option.bind, Int.ofNat_eq_coe, sliceGet_natCast, List.getElem?_eq_getElem hlt]
      rw [List.take_succ, List.getElem?_eq_getElem hlt]
      simp only [Option.toList, specText_append]
      congr 1
      apply String.ext
      simp [String.data_append, runesToString]
  have h := inv b.gen.length (Nat.le_refl _)
  rw [List.take_length] at h
  unfold Board.String
  rw [upto_natCast, List.foldlM_map]
  exact h

theorem specText_length (n : Nat) (g : Pattern) (h : ∀ row ∈ g, row.length = n) :
    (specText g).length = g.length * (n + 1) := by
  induction g with
  | nil => simp [specText]
  | cons row g ih =>
    have h1 : row.length = n := h row (List.mem_cons_self _ _)
    have h2 := ih (fun r hr => h r (List.mem_cons_of_mem _ hr))
    simp only [specText, List.map_cons, List.flatten_cons, List.length_append, List.length_map,
      List.length_cons, List.length_nil] at h2 ⊢
    rw [h2, h1]
    ring

theorem specText_getLast (g : Pattern) (h : g ≠ []) : (specText g).getLast? = some '\n' := by
  obtain ⟨g0, row, rfl⟩ : ∃ g0 row, g = g0 ++ [row] :=
    ⟨g.dropLast, g.getLast h, (List.dropLast_append_getLast h).symm⟩
  rw [specText_append, ← List.append_assoc, List.getLast?_append]
  rfl

theorem runeToChar_newline (r : Int) (h : runeToChar r = '\n') : r = 10 := by
  unfold runeToChar at h
  split at h
  · next hv =>
    have h2 : (Char.ofNat r.toNat).toNat = r.toNat := by
      simp only [Char.ofNat, hv.2, Char.toNat, Char.ofNatAux, dite_true]
      rfl
    rw [h] at h2
    have h3 : ('\n').toNat = 10 := by decide
    rw [h3] at h2
    omega
  · exact absurd h (by decide)

theorem specText_count (g : Pattern) (h : ∀ row ∈ g, ∀ x ∈ row, x ≠ 10) :
    (specText g).count '\n' = g.length := by
  induction g with
  | nil => rfl
  | cons row g ih =>
    have h2 := ih (fun r hr => h r (List.mem_cons_of_mem _ hr))
    have h1 : (row.map runeToChar).count '\n' = 0 := by
      rw [List.count_eq_zero]
      intro hmem
      obtain ⟨x, hx, hxc⟩ := List.mem_map.mp hmem
      exact h row (List.mem_cons_self _ _) x hx (runeToChar_newline x hxc)
    simp only [specText, List.map_cons, List.flatten_cons, List.count_append,
      List.length_cons] at h2 ⊢
    rw [h2, h1]
    simp
    omega


/-- C3: on a structurally valid board of live and dead cells `String()` does not fail and
returns, for each row `0, 1, ..., dim-1` in order, the row's `dim` glyphs followed by one
newline; the text holds exactly `dim` newline characters, its last character is a newline
and it has `dim*(dim+1)` characters; for the 3x3 all-dead generation it is three lines of
three spaces. -/
theorem String_rows_newline_terminated :
    (∀ b : Board, b.Valid → CellsLD b.gen →
      ∃ s, Board.String b = some s ∧ s.data = specText b.gen ∧
        (s.data.count '\n' : Int) = b.dim ∧
        s.data.getLast? = some '\n' ∧
        (s.data.length : Int) = b.dim * (b.dim + 1)) ∧
    Board.String ⟨3, dead3⟩ = some "   \n   \n   \n" := by
  refine ⟨?_, by decide⟩
  intro b hv hcells
  obtain ⟨hd, hl, hrows⟩ := hv
  refine ⟨_, String_eq b, rfl, ?_, ?_, ?_⟩
  · have hne : ∀ row ∈ b.gen, ∀ x ∈ row, x ≠ 10 := by
      intro row hrow x hx
      rcases hcells row hrow x hx with h | h <;> rw [h] <;> decide
    simp only []
    rw [specText_count b.gen hne]
    exact hl
  · apply specText_getLast
    intro hnil
    rw [hnil] at hl
    simp at hl
    omega
  · have h := specText_length b.dim.toNat b.gen (fun row hr => by have := hrows row hr; omega)
    simp only []
    rw [h]
    push_cast
    rw [hl, Int.toNat_of_nonneg (by omega)]

/-- C3 on the 3x3 blinker board. -/
theorem String_rows_newline_terminated_witness :
    (⟨3, blinker3⟩ : Board).Valid ∧ CellsLD blinker3 ∧
    ∃ s, Board.String ⟨3, blinker3⟩ = some s ∧ s.data = specText blinker3 ∧
      (s.data.count '\n' : Int) = 3 ∧
      s.data.getLast? = some '\n' ∧
      (s.data.length : Int) = 3 * (3 + 1) :=
  ⟨by decide, by decide, String_rows_newline_terminated.1 ⟨3, blinker3⟩ (by decide) (by decide)⟩

/-- Any number of `Tick`s on a square board succeeds and keeps `dim` and the shape. -/
theorem tickN_square (n : Nat) : ∀ b : Board, Square b.dim b.gen →
    ∃ bn, tickN n b = some bn ∧ bn.dim = b.dim ∧ Square b.dim bn.gen := by
  induction n with
  | zero => intro b hsq; exact ⟨b, rfl, rfl, hsq⟩
  | succ n ih =>
    intro b hsq
    obtain ⟨b2, hb2, hd2, hsq2, _⟩ := Tick_spec b hsq
    obtain ⟨bn, hbn, hdn, hsqn⟩ := ih b2 (by rw [hd2]; exact hsq2)
    refine ⟨bn, ?_, by rw [hdn, hd2], by rw [hd2] at hsqn; exact hsqn⟩
    simp only [tickN, hb2, Option.bind]
    exact hbn

/-- C4: `NewBoard(dim, p)` for `dim ≥ 1` and a square pattern of side `pDim ≤ dim` returns a
board with field `dim` and a generation of `dim` rows of `dim` cells; `Tick` on a board with
a generation of `dim` rows of `dim` cells keeps `dim` and that shape; hence every board
reached from `NewBoard` by any number of `Tick`s is square of side `dim`. -/
theorem shape_invariant :
    (∀ (dim : Int) (p : Pattern), 1 ≤ dim → Square (p.length : Int) p → (p.length : Int) ≤ dim →
      ∃ b, NewBoard dim p = some b ∧ b.dim = dim ∧ Square dim b.gen) ∧
    (∀ b : Board, Square b.dim b.gen →
      ∃ b2, Tick b = some b2 ∧ b2.dim = b.dim ∧ Square b.dim b2.gen) ∧
    (∀ (dim : Int) (p : Pattern), 1 ≤ dim → Square (p.length : Int) p → (p.length : Int) ≤ dim →
      ∀ n : Nat, ∃ b bn, NewBoard dim p = some b ∧ tickN n b = some bn ∧
        bn.dim = dim ∧ Square dim bn.gen) := by
  refine ⟨?_, ?_, ?_⟩
  · intro dim p hdim hp _
    obtain ⟨b, hb, hd, hsq, _⟩ := NewBoard_spec dim (by omega) p hp
    exact ⟨b, hb, hd, hsq⟩
  · intro b hsq
    obtain ⟨b2, hb2, hd2, hsq2, _⟩ := Tick_spec b hsq
    exact ⟨b2, hb2, hd2, hsq2⟩
  · intro dim p hdim hp _ n
    obtain ⟨b, hb, hd, hsq, _⟩ := NewBoard_spec dim (by omega) p hp
    obtain ⟨bn, hbn, hdn, hsqn⟩ := tickN_square n b (by rw [hd]; exact hsq)
    exact ⟨b, bn, hb, hbn, by rw [hdn, hd], by rw [hd] at hsqn; exact hsqn⟩

/-- C4 at `dim = 4`, the diagonal pattern and three `Tick`s. -/
theorem shape_invariant_witness :
    ∃ b bn, NewBoard 4 diag2 = some b ∧ tickN 3 b = some bn ∧ bn.dim = 4 ∧ Square 4 bn.gen :=
  shape_invariant.2.2 4 diag2 (by decide) (by decide) (by decide) 3

/-- C5: on a structurally valid board every index `(cellRow + i + dim) % dim` and
`(cellCol + j + dim) % dim` computed by `fate` lies in `[0, dim)` and the cell it addresses
can be read; `fate` on every cell, `Tick` and `String` do not fail. -/
theorem Tick_String_total (b : Board) (hv : b.Valid) :
    (∀ cellRow cellCol i j : Int, 0 ≤ cellRow → cellRow < b.dim → 0 ≤ cellCol → cellCol < b.dim →
      -1 ≤ i → i ≤ 1 → -1 ≤ j → j ≤ 1 →
        0 ≤ Int.tmod (cellRow + i + b.dim) b.dim ∧ Int.tmod (cellRow + i + b.dim) b.dim < b.dim ∧
        0 ≤ Int.tmod (cellCol + j + b.dim) b.dim ∧ Int.tmod (cellCol + j + b.dim) b.dim < b.dim ∧
        (readCell b.gen (Int.tmod (cellRow + i + b.dim) b.dim)
          (Int.tmod (cellCol + j + b.dim) b.dim)).isSome = true) ∧
    (∀ cellRow cellCol : Int, 0 ≤ cellRow → cellRow < b.dim → 0 ≤ cellCol → cellCol < b.dim →
      (fate b cellRow cellCol).isSome = true) ∧
    (Tick b).isSome = true ∧ (Board.String b).isSome = true := by
  refine ⟨?_, ?_, ?_, ?_⟩
  · intro r c i j hr0 hr hc0 hc hi hi2 hj hj2
    rw [tmod_wrap b.dim r i hr0 hr hi hi2, tmod_wrap b.dim c j hc0 hc hj hj2]
    obtain ⟨h1, h2⟩ := wrapIdx_range b.dim r i hr0 hr hi hi2
    obtain ⟨h3, h4⟩ := wrapIdx_range b.dim c j hc0 hc hj hj2
    obtain ⟨v, hv2⟩ := readCell_of_square b.dim b.gen hv.2 _ _ h1 h2 h3 h4
    exact ⟨h1, h2, h3, h4, by rw [hv2]; rfl⟩
  · intro r c hr0 hr hc0 hc
    obtain ⟨s, _, hf⟩ := fate_eq b hv r c hr0 hr hc0 hc
    rw [hf]; rfl
  · obtain ⟨b2, hb2, _⟩ := Tick_spec b hv.2
    rw [hb2]; rfl
  · rw [String_eq b]; rfl

/-- C5 on the 3x3 blinker board. -/
theorem Tick_String_total_witness :
    (∀ cellRow cellCol i j : Int, 0 ≤ cellRow → cellRow < 3 → 0 ≤ cellCol → cellCol < 3 →
      -1 ≤ i → i ≤ 1 → -1 ≤ j → j ≤ 1 →
        0 ≤ Int.tmod (cellRow + i + 3) 3 ∧ Int.tmod (cellRow + i + 3) 3 < 3 ∧
        0 ≤ Int.tmod (cellCol + j + 3) 3 ∧ Int.tmod (cellCol + j + 3) 3 < 3 ∧
        (readCell blinker3 (Int.tmod (cellRow + i + 3) 3)
          (Int.tmod (cellCol + j + 3) 3)).isSome = true) ∧
    (∀ cellRow cellCol : Int, 0 ≤ cellRow → cellRow < 3 → 0 ≤ cellCol → cellCol < 3 →
      (fate ⟨3, blinker3⟩ cellRow cellCol).isSome = true) ∧
    (Tick ⟨3, blinker3⟩).isSome = true ∧ (Board.String ⟨3, blinker3⟩).isSome = true :=
  Tick_String_total ⟨3, blinker3⟩ (by decide)

theorem tdiv_two_of_nonpos (a : Int) (h : a ≤ 0) : Int.tdiv a 2 = -((-a) / 2) := by
  have e : a = -(-a) := by omega
  rw [e, Int.neg_tdiv, Int.tdiv_eq_ediv (by omega) (by decide)]
  simp

/-- C9 (amended): for `dim ≥ 1` and a square pattern of side `pDim > dim`, `NewBoard(dim, p)`
does not fail and returns a `dim x dim` generation whose cell `(row, col)` is
`p[row - off][col - off]`, where `off = (dim - pDim) / 2` rounds toward zero: a window of the
pattern, all dead exactly when that window of `p` is all dead. -/
theorem oversized_seed_window (dim : Int) (p : Pattern) (hdim : 1 ≤ dim)
    (hp : Square (p.length : Int) p) (hbig : dim < (p.length : Int)) :
    ∃ b, NewBoard dim p = some b ∧ Square dim b.gen ∧
      (∀ row col : Int, 0 ≤ row → row < dim → 0 ≤ col → col < dim →
        ∃ v, readCell p (row - Int.tdiv (dim - p.length) 2) (col - Int.tdiv (dim - p.length) 2)
            = some v ∧ readCell b.gen row col = some v) ∧
      ((∀ row col : Int, 0 ≤ row → row < dim → 0 ≤ col → col < dim →
          readCell b.gen row col = some D) ↔
        (∀ row col : Int, 0 ≤ row → row < dim → 0 ≤ col → col < dim →
          readCell p (row - Int.tdiv (dim - p.length) 2) (col - Int.tdiv (dim - p.length) 2)
            = some D)) := by
  obtain ⟨b, hb, _, hsq, hcell⟩ := NewBoard_spec dim (by omega) p hp
  have hoff := tdiv_two_of_nonpos (dim - (p.length : Int)) (by omega)
  have key : ∀ row col : Int, 0 ≤ row → row < dim → 0 ≤ col → col < dim →
      readCell b.gen row col =
        readCell p (row - Int.tdiv (dim - p.length) 2) (col - Int.tdiv (dim - p.length) 2) := by
    intro row col hr0 hr hc0 hc
    rw [hcell row col hr0 hr hc0 hc]
    unfold newBoardCell
    simp only []
    rw [if_pos (by rw [hoff]; omega)]
  refine ⟨b, hb, hsq, ?_, ?_⟩
  · intro row col hr0 hr hc0 hc
    obtain ⟨v, hv⟩ := readCell_of_square _ p hp (row - Int.tdiv (dim - p.length) 2)
      (col - Int.tdiv (dim - p.length) 2) (by rw [hoff]; omega) (by rw [hoff]; omega)
      (by rw [hoff]; omega) (by rw [hoff]; omega)
    exact ⟨v, hv, by rw [key row col hr0 hr hc0 hc, hv]⟩
  · constructor
    · intro h row col hr0 hr hc0 hc
      rw [← key row col hr0 hr hc0 hc]
      exact h row col hr0 hr hc0 hc
    · intro h row col hr0 hr hc0 hc
      rw [key row col hr0 hr hc0 hc]
      exact h row col hr0 hr hc0 hc

/-- C9 (amended) at `dim = 1` and the 2x2 block. -/
theorem oversized_seed_window_witness :
    ∃ b, NewBoard 1 block = some b ∧ Square 1 b.gen ∧
      (∀ row col : Int, 0 ≤ row → row < 1 → 0 ≤ col → col < 1 →
        ∃ v, readCell block (row - Int.tdiv (1 - block.length) 2)
            (col - Int.tdiv (1 - block.length) 2) = some v ∧ readCell b.gen row col = some v) ∧
      ((∀ row col : Int, 0 ≤ row → row < 1 → 0 ≤ col → col < 1 →
          readCell b.gen row col = some D) ↔
        (∀ row col : Int, 0 ≤ row → row < 1 → 0 ≤ col → col < 1 →
          readCell block (row - Int.tdiv (1 - block.length) 2)
            (col - Int.tdiv (1 - block.length) 2) = some D)) :=
  oversized_seed_window 1 block (by decide) (by decide) (by decide)

/-- C9 as stated fails at `dim = 1` with the 2x2 block (`pDim = 2 > 1`): the bounds test
matches at `(0, 0)` and the board holds a live cell. -/
theorem oversized_seed_counterexample :
    (1 : Int) ≤ 1 ∧ Square (block.length : Int) block ∧ (1 : Int) < (block.length : Int) ∧
    NewBoard 1 block = some ⟨1, [[L]]⟩ ∧ readCell [[L]] 0 0 = some L ∧ L ≠ D := by
  decide


/-- A property of every readable cell of a square grid holds of every member cell. -/
theorem cells_of_readCell (dim : Int) (g : Pattern) (hsq : Square dim g) (P : Rune → Prop)
    (h : ∀ r c : Int, 0 ≤ r → r < dim → 0 ≤ c → c < dim → ∀ v, readCell g r c = some v → P v) :
    ∀ row ∈ g, ∀ x ∈ row, P x := by
  intro row hrow x hx
  obtain ⟨i, hi, rfl⟩ := List.getElem_of_mem hrow
  obtain ⟨j, hj, rfl⟩ := List.getElem_of_mem hx
  have hlen := hsq.2 _ hrow
  apply h (i : Int) (j : Int) (by omega) (by have := hsq.1; omega) (by omega) (by omega)
  rw [readCell_natCast, List.getElem?_eq_getElem hi]
  simp [Option.bind, List.getElem?_eq_getElem hj]

theorem sliceGet_mem {α : Type} (xs : List α) (i : Int) (v : α) (h : sliceGet xs i = some v) :
    v ∈ xs := by
  unfold sliceGet at h
  split at h
  · exact List.getElem?_mem h
  · cases h

/-- A value read from a grid is a member cell of it. -/
theorem readCell_mem (g : Pattern) (r c : Int) (v : Rune) (h : readCell g r c = some v) :
    ∃ row ∈ g, v ∈ row := by
  unfold readCell at h
  cases hrow : sliceGet g r with
  | none => simp [hrow, bind] at h
  | some row =>
    simp only [hrow, bind, Option.bind] at h
    exact ⟨row, sliceGet_mem g r row hrow, sliceGet_mem row c v h⟩

theorem rule_LD (n : Int) (s : Rune) : rule n s = L ∨ rule n s = D := by
  unfold rule
  split_ifs <;> simp

/-- After a `Tick` of a valid board every cell is `L` or `D`. -/
theorem Tick_cellsLD (b b2 : Board) (hv : b.Valid) (h : Tick b = some b2) : CellsLD b2.gen := by
  obtain ⟨b3, hb3, _, hsq, hcell⟩ := Tick_spec b hv.2
  rw [h] at hb3
  cases hb3
  apply cells_of_readCell b.dim b2.gen hsq
  intro r c hr0 hr hc0 hc v hread
  obtain ⟨s, _, hf⟩ := fate_eq b hv r c hr0 hr hc0 hc
  rw [hcell r c hr0 hr hc0 hc, hf] at hread
  cases hread
  exact rule_LD _ _

/-- The board built by `NewBoard` from a pattern of `L` and `D` cells holds only `L` and `D`. -/
theorem NewBoard_cellsLD (dim : Int) (p : Pattern) (b : Board) (hd : 0 ≤ dim)
    (hp : Square (p.length : Int) p) (hc : CellsLD p) (h : NewBoard dim p = some b) :
    CellsLD b.gen := by
  obtain ⟨b3, hb3, _, hsq, hcell⟩ := NewBoard_spec dim hd p hp
  rw [h] at hb3
  cases hb3
  apply cells_of_readCell dim b.gen hsq
  intro r c hr0 hr hc0 hcc v hread
  rw [hcell r c hr0 hr hc0 hcc] at hread
  unfold newBoardCell at hread
  simp only [] at hread
  split at hread
  · obtain ⟨row, hrow, hv⟩ := readCell_mem p _ _ v hread
    exact hc row hrow v hv
  · cases hread
    exact Or.inr rfl

/-- Any number of `Tick`s from a valid board of `L` and `D` cells gives such a board. -/
theorem tickN_cellsLD (n : Nat) : ∀ b : Board, b.Valid → CellsLD b.gen →
    ∃ bn, tickN n b = some bn ∧ bn.dim = b.dim ∧ Square b.dim bn.gen ∧ CellsLD bn.gen := by
  induction n with
  | zero => intro b hv hc; exact ⟨b, rfl, rfl, hv.2, hc⟩
  | succ n ih =>
    intro b hv hc
    obtain ⟨b2, hb2, hd2, hsq2, _⟩ := Tick_spec b hv.2
    have hv2 : b2.Valid := ⟨by rw [hd2]; exact hv.1, by rw [hd2]; exact hsq2⟩
    obtain ⟨bn, hbn, hdn, hsqn, hcn⟩ := ih b2 hv2 (Tick_cellsLD b b2 hv hb2)
    refine ⟨bn, ?_, by rw [hdn, hd2], by rw [hd2] at hsqn; exact hsqn, hcn⟩
    simp only [tickN, hb2, Option.bind]
    exact hbn

/-- C10: for `dim ≥ 1`, a square pattern of side `pDim ≤ dim` with cells `'O'` or `' '`, and
every `n`, the board after `n` `Tick`s from `NewBoard(dim, p)` is `dim x dim` with every cell
`'O'` or `' '`, and `String()` is exactly `dim` lines of `dim` characters from `'O'`, `' '`,
each followed by a newline, with nothing else. -/
theorem reachable_text_well_formed (dim : Int) (p : Pattern) (hdim : 1 ≤ dim)
    (hp : Square (p.length : Int) p) (_hle : (p.length : Int) ≤ dim) (hcells : CellsLD p)
    (n : Nat) :
    ∃ b bn, NewBoard dim p = some b ∧ tickN n b = some bn ∧
      Square dim bn.gen ∧ (∀ row ∈ bn.gen, ∀ x ∈ row, x = L ∨ x = D) ∧
      ∃ lines : List (List Char), (lines.length : Int) = dim ∧
        (∀ l ∈ lines, (l.length : Int) = dim ∧ ∀ ch ∈ l, ch = 'O' ∨ ch = ' ') ∧
        Board.String bn = some (String.mk (lines.map (fun l => l ++ ['\n'])).flatten) := by
  obtain ⟨b, hb, hd, hsq, _⟩ := NewBoard_spec dim (by omega) p hp
  have hv : b.Valid := ⟨by rw [hd]; exact hdim, by rw [hd]; exact hsq⟩
  obtain ⟨bn, hbn, hdn, hsqn, hcn⟩ :=
    tickN_cellsLD n b hv (NewBoard_cellsLD dim p b (by omega) hp hcells hb)
  rw [hd] at hsqn
  refine ⟨b, bn, hb, hbn, hsqn, hcn, bn.gen.map (fun row => row.map runeToChar), ?_, ?_, ?_⟩
  · rw [List.length_map]; exact hsqn.1
  · intro l hl
    obtain ⟨row, hrow, rfl⟩ := List.mem_map.mp hl
    refine ⟨by rw [List.length_map]; exact hsqn.2 row hrow, ?_⟩
    intro ch hch
    obtain ⟨x, hx, rfl⟩ := List.mem_map.mp hch
    rcases hcn row hrow x hx with h | h
    · left; rw [h]; decide
    · right; rw [h]; decide
  · rw [String_eq bn]
    simp [specText, List.map_map, Function.comp_def]

/-- C10 at `dim = 4`, the diagonal pattern and three `Tick`s. -/
theorem reachable_text_well_formed_witness :
    ∃ b bn, NewBoard 4 diag2 = some b ∧ tickN 3 b = some bn ∧
      Square 4 bn.gen ∧ (∀ row ∈ bn.gen, ∀ x ∈ row, x = L ∨ x = D) ∧
      ∃ lines : List (List Char), (lines.length : Int) = 4 ∧
        (∀ l ∈ lines, (l.length : Int) = 4 ∧ ∀ ch ∈ l, ch = 'O' ∨ ch = ' ') ∧
        Board.String bn = some (String.mk (lines.map (fun l => l ++ ['\n'])).flatten) :=
  reachable_text_well_formed 4 diag2 (by decide) (by decide) (by decide) (by decide) 3


theorem countP_visits (g : Pattern) (r c : Int) (qs : List (Int × Int)) :
    (((qs.filter (fun q => ¬ (r = q.1 ∧ c = q.2))).countP
        (fun q => readCell g q.1 q.2 = some L) : Nat) : Int) =
      (qs.map (fun q => if r = q.1 ∧ c = q.2 then 0 else liveBit g q.1 q.2)).sum := by
  induction qs with
  | nil => rfl
  | cons q qs ih =>
    rw [List.map_cons, List.sum_cons, ← ih]
    by_cases hq : r = q.1 ∧ c = q.2
    · rw [List.filter_cons_of_neg (by simp only [decide_eq_true_eq]; exact not_not.mpr hq), if_pos hq]
      simp
    · rw [List.filter_cons_of_pos (by simp only [decide_eq_true_eq]; exact hq), if_neg hq,
        List.countP_cons]
      unfold liveBit
      by_cases hl : readCell g q.1 q.2 = some L
      · simp [hl]; ring
      · simp [hl]

/-- The count left by the neighbour loop of `fate` is the number of live cells among the
coordinates the loop visits. -/
theorem nbrCount_eq_visits (dim : Int) (g : Pattern) (r c : Int)
    (hr0 : 0 ≤ r) (hr : r < dim) (hc0 : 0 ≤ c) (hc : c < dim) :
    nbrCount dim g r c =
      ((fateVisits dim r c).countP (fun q => readCell g q.1 q.2 = some L) : Int) := by
  unfold fateVisits
  rw [countP_visits]
  unfold nbrCount nbrTerm
  simp only [List.flatMap_cons, List.flatMap_nil, List.map_cons, List.map_nil, List.cons_append,
    List.nil_append, List.append_nil, List.sum_cons, List.sum_nil,
    tmod_wrap dim r (-1) hr0 hr (by decide) (by decide),
    tmod_wrap dim r 0 hr0 hr (by decide) (by decide),
    tmod_wrap dim r 1 hr0 hr (by decide) (by decide),
    tmod_wrap dim c (-1) hc0 hc (by decide) (by decide),
    tmod_wrap dim c 0 hc0 hc (by decide) (by decide),
    tmod_wrap dim c 1 hc0 hc (by decide) (by decide)]
  ring

theorem visits3_perm (r c : Int) (hr0 : 0 ≤ r) (hr : r < 3) (hc0 : 0 ≤ c) (hc : c < 3) :
    (fateVisits 3 r c).Perm (otherCells 3 r c) ∧ (otherCells 3 r c).Nodup ∧
      (otherCells 3 r c).length = 8 := by
  interval_cases r <;> interval_cases c <;> decide

/-- C8: on a 3x3 board the wrapped coordinates visited by the neighbour loop of `fate` for
`(r, c)` are exactly the eight other cells, each once, so the count is the number of live
cells among the other eight; with a single live cell at `(0,0)` every other cell counts one
live neighbour and `(0,0)` counts none. -/
theorem wraparound_dim3 :
    (∀ (g : Pattern), Square 3 g → ∀ r c : Int, 0 ≤ r → r < 3 → 0 ≤ c → c < 3 →
      (fateVisits 3 r c).Perm (otherCells 3 r c) ∧ (otherCells 3 r c).Nodup ∧
      (otherCells 3 r c).length = 8 ∧
      fateNeighbors ⟨3, g⟩ r c =
        some (((otherCells 3 r c).countP (fun q => readCell g q.1 q.2 = some L) : Nat) : Int)) ∧
    (∀ r c : Int, 0 ≤ r → r < 3 → 0 ≤ c → c < 3 →
      fateNeighbors ⟨3, corner3⟩ r c = some (if r = 0 ∧ c = 0 then 0 else 1)) := by
  constructor
  · intro g hsq r c hr0 hr hc0 hc
    obtain ⟨hperm, hnd, hlen⟩ := visits3_perm r c hr0 hr hc0 hc
    refine ⟨hperm, hnd, hlen, ?_⟩
    rw [fateNeighbors_eq ⟨3, g⟩ ⟨(by decide : (1 : Int) ≤ 3), hsq⟩ r c hr0 hr hc0 hc]
    simp only []
    rw [nbrCount_eq_visits 3 g r c hr0 hr hc0 hc, hperm.countP_eq]
  · intro r c hr0 hr hc0 hc
    interval_cases r <;> interval_cases c <;> decide

/-- C8 on the 3x3 blinker board at the corner `(2, 2)`. -/
theorem wraparound_dim3_witness :
    (fateVisits 3 2 2).Perm (otherCells 3 2 2) ∧ (otherCells 3 2 2).Nodup ∧
      (otherCells 3 2 2).length = 8 ∧
      fateNeighbors ⟨3, blinker3⟩ 2 2 =
        some (((otherCells 3 2 2).countP (fun q => readCell blinker3 q.1 q.2 = some L) : Nat) : Int) :=
  wraparound_dim3.1 blinker3 (by decide) 2 2 (by decide) (by decide) (by decide) (by decide)


theorem offsets8_bounds : ∀ o ∈ offsets8, -1 ≤ o.1 ∧ o.1 ≤ 1 ∧ -1 ≤ o.2 ∧ o.2 ≤ 1 := by
  decide

theorem L_ne_D : L ≠ D := by decide

/-- When the live set stays off the border rows and columns, the toroidal count of the
code is the count on the unbounded plane. -/
theorem specLiveNeighbours_eq_plane (b : Board) (off : Int) (S : List (Int × Int))
    (hs : HoldsSet b off S)
    (hbox : ∀ q ∈ S, 1 ≤ q.1 + off ∧ q.1 + off ≤ b.dim - 2 ∧ 1 ≤ q.2 + off ∧ q.2 + off ≤ b.dim - 2)
    (r c : Int) (hr0 : 0 ≤ r) (hr : r < b.dim) (hc0 : 0 ≤ c) (hc : c < b.dim) :
    specLiveNeighbours b.dim b.gen r c = planeCount S (r - off) (c - off) := by
  unfold specLiveNeighbours planeCount
  apply List.countP_congr
  intro o ho
  obtain ⟨h1, h2, h3, h4⟩ := offsets8_bounds o ho
  rw [emod_wrap b.dim r o.1 hr0 hr h1 h2, emod_wrap b.dim c o.2 hc0 hc h3 h4]
  obtain ⟨hw1, hw2⟩ := wrapIdx_range b.dim r o.1 hr0 hr h1 h2
  obtain ⟨hw3, hw4⟩ := wrapIdx_range b.dim c o.2 hc0 hc h3 h4
  rw [hs _ _ hw1 hw2 hw3 hw4]
  simp only [decide_eq_true_eq]
  have hmem : (wrapIdx b.dim (r + o.1) - off, wrapIdx b.dim (c + o.2) - off) ∈ S ↔
      (r - off + o.1, c - off + o.2) ∈ S := by
    by_cases hnowrap : wrapIdx b.dim (r + o.1) = r + o.1 ∧ wrapIdx b.dim (c + o.2) = c + o.2
    · rw [hnowrap.1, hnowrap.2]
      have e1 : r + o.1 - off = r - off + o.1 := by ring
      have e2 : c + o.2 - off = c - off + o.2 := by ring
      rw [e1, e2]
    · constructor
      · intro hin
        exfalso
        have hb := hbox _ hin
        simp only [] at hb
        apply hnowrap
        unfold wrapIdx at hb ⊢
        constructor
        · split_ifs at hb ⊢ <;> omega
        · split_ifs at hb ⊢ <;> omega
      · intro hin
        exfalso
        have hb := hbox _ hin
        simp only [] at hb
        apply hnowrap
        unfold wrapIdx
        constructor
        · split_ifs <;> omega
        · split_ifs <;> omega
  rw [← hmem]
  split_ifs with hin
  · simp [hin]
  · simp [hin, L_ne_D.symm]

/-- One `Tick` of a valid board holding a live set that stays off the border: the new board
holds the live set of one step of the rule on the unbounded plane. -/
theorem Tick_holdsSet (b : Board) (hv : b.Valid) (off : Int) (S S2 : List (Int × Int))
    (hs : HoldsSet b off S)
    (hbox : ∀ q ∈ S, 1 ≤ q.1 + off ∧ q.1 + off ≤ b.dim - 2 ∧ 1 ≤ q.2 + off ∧ q.2 + off ≤ b.dim - 2)
    (hstep : ∀ x y : Int, (x, y) ∈ S2 ↔ planeNext S x y = true) :
    ∃ b2, Tick b = some b2 ∧ b2.Valid ∧ b2.dim = b.dim ∧ HoldsSet b2 off S2 := by
  obtain ⟨b2, hb2, hd2, hsq2, hcell⟩ := Tick_spec b hv.2
  refine ⟨b2, hb2, ⟨by rw [hd2]; exact hv.1, by rw [hd2]; exact hsq2⟩, hd2, ?_⟩
  intro r c hr0 hr hc0 hc
  rw [hd2] at hr hc
  obtain ⟨state, hstate, hf⟩ := fate_eq b hv r c hr0 hr hc0 hc
  rw [hcell r c hr0 hr hc0 hc, hf,
    rule_eq_specRule b.dim b.gen r c hv.1 hr0 hr hc0 hc state hstate,
    specLiveNeighbours_eq_plane b off S hs hbox r c hr0 hr hc0 hc, hs r c hr0 hr hc0 hc]
  have hold : (some (if (r - off, c - off) ∈ S then L else D) = some L) ↔ (r - off, c - off) ∈ S := by
    split_ifs with hin
    · simp [hin]
    · simp [hin, L_ne_D.symm]
  simp only [hold]
  have := hstep (r - off) (c - off)
  unfold planeNext at this
  simp only [decide_eq_true_eq] at this
  by_cases hin2 : (r - off, c - off) ∈ S2
  · rw [if_pos hin2, if_pos (this.mp hin2)]
  · rw [if_neg hin2, if_neg (fun h => hin2 (this.mpr h))]


theorem mem_intRange (lo : Int) (n : Nat) (x : Int) :
    x ∈ intRange lo n ↔ lo ≤ x ∧ x < lo + n := by
  unfold intRange
  rw [List.mem_map]
  constructor
  · rintro ⟨k, hk, rfl⟩
    rw [List.mem_range] at hk
    simp only [Int.ofNat_eq_coe]
    omega
  · intro h
    refine ⟨(x - lo).toNat, ?_, ?_⟩
    · rw [List.mem_range]; omega
    · simp only [Int.ofNat_eq_coe]
      omega

/-- Away from the live set no cell of the plane has a live neighbour. -/
theorem planeCount_outside (S : List (Int × Int)) (lo hi : Int)
    (hS : ∀ q ∈ S, lo ≤ q.1 ∧ q.1 ≤ hi ∧ lo ≤ q.2 ∧ q.2 ≤ hi) (x y : Int)
    (hout : x < lo - 1 ∨ hi + 1 < x ∨ y < lo - 1 ∨ hi + 1 < y) : planeCount S x y = 0 := by
  unfold planeCount
  rw [List.countP_eq_zero]
  intro o ho
  obtain ⟨h1, h2, h3, h4⟩ := offsets8_bounds o ho
  simp only [decide_eq_true_eq]
  intro hin
  have hb := hS _ hin
  simp only [] at hb
  omega

/-- A step of the rule on the plane is settled by checking the window around the live set. -/
theorem plane_step_check (S S2 : List (Int × Int)) (lo : Int) (n : Nat)
    (hS : ∀ q ∈ S, lo + 1 ≤ q.1 ∧ q.1 ≤ lo + n - 2 ∧ lo + 1 ≤ q.2 ∧ q.2 ≤ lo + n - 2)
    (hS2 : ∀ q ∈ S2, lo + 1 ≤ q.1 ∧ q.1 ≤ lo + n - 2 ∧ lo + 1 ≤ q.2 ∧ q.2 ≤ lo + n - 2)
    (hin : ∀ x ∈ intRange lo n, ∀ y ∈ intRange lo n, decide ((x, y) ∈ S2) = planeNext S x y) :
    ∀ x y : Int, (x, y) ∈ S2 ↔ planeNext S x y = true := by
  intro x y
  by_cases hwin : (lo ≤ x ∧ x < lo + n) ∧ (lo ≤ y ∧ y < lo + n)
  · have h := hin x ((mem_intRange lo n x).mpr hwin.1) y ((mem_intRange lo n y).mpr hwin.2)
    rw [← h]
    simp
  · have hcount := planeCount_outside S (lo + 1) (lo + n - 2) hS x y (by omega)
    constructor
    · intro hmem
      have hb := hS2 _ hmem
      simp only [] at hb
      omega
    · intro hnext
      unfold planeNext at hnext
      rw [hcount] at hnext
      simp at hnext

/-- The function `NewBoard` on a pattern of `L` and `D` cells whose live cells are `S` returns a valid board
holding `S` at the centring offset. -/
theorem NewBoard_holdsSet (dim : Int) (p : Pattern) (S : List (Int × Int)) (hdim : 1 ≤ dim)
    (hp : Square (p.length : Int) p) (hle : (p.length : Int) ≤ dim)
    (hS : ∀ x y : Int, 0 ≤ x → x < (p.length : Int) → 0 ≤ y → y < (p.length : Int) →
      readCell p x y = some (if (x, y) ∈ S then L else D))
    (hbox : ∀ q ∈ S, 0 ≤ q.1 ∧ q.1 < (p.length : Int) ∧ 0 ≤ q.2 ∧ q.2 < (p.length : Int)) :
    ∃ b, NewBoard dim p = some b ∧ b.Valid ∧ b.dim = dim ∧
      HoldsSet b ((dim - (p.length : Int)) / 2) S := by
  obtain ⟨b, hb, hd, hsq, hcell⟩ := NewBoard_spec dim (by omega) p hp
  refine ⟨b, hb, ⟨by rw [hd]; exact hdim, by rw [hd]; exact hsq⟩, hd, ?_⟩
  intro r c hr0 hr hc0 hc
  rw [hd] at hr hc
  rw [hcell r c hr0 hr hc0 hc]
  have hdiv : Int.tdiv (dim - (p.length : Int)) 2 = (dim - (p.length : Int)) / 2 :=
    Int.tdiv_eq_ediv (by omega) (by decide)
  unfold newBoardCell
  simp only [hdiv]
  split
  · exact hS _ _ (by omega) (by omega) (by omega) (by omega)
  · next hout =>
    have hnot : (r - (dim - (p.length : Int)) / 2, c - (dim - (p.length : Int)) / 2) ∉ S := by
      intro hmem
      have hb2 := hbox _ hmem
      simp only [] at hb2
      omega
    rw [if_neg hnot]

theorem block_cells (x y : Int) (hx0 : 0 ≤ x) (hx : x < (block.length : Int))
    (hy0 : 0 ≤ y) (hy : y < (block.length : Int)) :
    readCell block x y = some (if (x, y) ∈ blockCells then L else D) := by
  have h2 : ((block.length : Nat) : Int) = 2 := by decide
  rw [h2] at hx hy
  interval_cases x <;> interval_cases y <;> decide

theorem glider_cells (x y : Int) (hx0 : 0 ≤ x) (hx : x < (glider.length : Int))
    (hy0 : 0 ≤ y) (hy : y < (glider.length : Int)) :
    readCell glider x y = some (if (x, y) ∈ gliderCells0 then L else D) := by
  have h2 : ((glider.length : Nat) : Int) = 3 := by decide
  rw [h2] at hx hy
  interval_cases x <;> interval_cases y <;> decide

theorem block_step : ∀ x y : Int, (x, y) ∈ blockCells ↔ planeNext blockCells x y = true :=
  plane_step_check blockCells blockCells (-1) 4 (by decide) (by decide) (by decide)

theorem glider_step01 : ∀ x y : Int, (x, y) ∈ gliderCells1 ↔ planeNext gliderCells0 x y = true :=
  plane_step_check gliderCells0 gliderCells1 (-1) 6 (by decide) (by decide) (by decide)

theorem glider_step12 : ∀ x y : Int, (x, y) ∈ gliderCells2 ↔ planeNext gliderCells1 x y = true :=
  plane_step_check gliderCells1 gliderCells2 (-1) 6 (by decide) (by decide) (by decide)

theorem glider_step23 : ∀ x y : Int, (x, y) ∈ gliderCells3 ↔ planeNext gliderCells2 x y = true :=
  plane_step_check gliderCells2 gliderCells3 (-1) 6 (by decide) (by decide) (by decide)

theorem glider_step34 : ∀ x y : Int, (x, y) ∈ gliderCells4 ↔ planeNext gliderCells3 x y = true :=
  plane_step_check gliderCells3 gliderCells4 (-1) 6 (by decide) (by decide) (by decide)


/-- C6: for every `dim ≥ 4` the board `NewBoard(dim, block)` is a fixed point of `Tick`: the
generation after one `Tick` equals the generation before it cell for cell, and `String()`
is unchanged. -/
theorem block_still_life (dim : Int) (hdim : 4 ≤ dim) :
    ∃ b b2, NewBoard dim block = some b ∧ Tick b = some b2 ∧ b2.dim = b.dim ∧
      (∀ r c : Int, 0 ≤ r → r < dim → 0 ≤ c → c < dim →
        ∃ v, readCell b.gen r c = some v ∧ readCell b2.gen r c = some v) ∧
      b2.gen = b.gen ∧ Board.String b2 = Board.String b := by
  have hlen : ((block.length : Nat) : Int) = 2 := by decide
  obtain ⟨b, hb, hv, hd, hs⟩ := NewBoard_holdsSet dim block blockCells (by omega) (by decide)
    (by rw [hlen]; omega) block_cells (by decide)
  rw [hlen] at hs
  have hbox : ∀ q ∈ blockCells, 1 ≤ q.1 + (dim - 2) / 2 ∧ q.1 + (dim - 2) / 2 ≤ b.dim - 2 ∧
      1 ≤ q.2 + (dim - 2) / 2 ∧ q.2 + (dim - 2) / 2 ≤ b.dim - 2 := by
    intro q hq
    have hq2 : 0 ≤ q.1 ∧ q.1 ≤ 1 ∧ 0 ≤ q.2 ∧ q.2 ≤ 1 := by
      revert q; decide
    rw [hd]
    omega
  obtain ⟨b2, hb2, hv2, hd2, hs2⟩ := Tick_holdsSet b hv _ blockCells blockCells hs hbox block_step
  have hgen : b2.gen = b.gen := by
    apply square_ext b.dim b2.gen b.gen (by rw [← hd2]; exact hv2.2) hv.2
    intro r c hr0 hr hc0 hc
    rw [hs r c hr0 hr hc0 hc, hs2 r c hr0 (by rw [hd2]; exact hr) hc0 (by rw [hd2]; exact hc)]
  refine ⟨b, b2, hb, hb2, hd2, ?_, hgen, ?_⟩
  · intro r c hr0 hr hc0 hc
    rw [hgen]
    exact ⟨_, hs r c hr0 (by rw [hd]; exact hr) hc0 (by rw [hd]; exact hc),
      hs r c hr0 (by rw [hd]; exact hr) hc0 (by rw [hd]; exact hc)⟩
  · rw [String_eq, String_eq, hgen]

/-- C6 at `dim = 4`. -/
theorem block_still_life_witness :
    ∃ b b2, NewBoard 4 block = some b ∧ Tick b = some b2 ∧ b2.dim = b.dim ∧
      (∀ r c : Int, 0 ≤ r → r < 4 → 0 ≤ c → c < 4 →
        ∃ v, readCell b.gen r c = some v ∧ readCell b2.gen r c = some v) ∧
      b2.gen = b.gen ∧ Board.String b2 = Board.String b :=
  block_still_life 4 (by decide)

theorem glider_shift (x y : Int) :
    (x, y) ∈ gliderCells4 ↔ (x - 1, y - 1) ∈ gliderCells0 := by
  simp only [gliderCells4, gliderCells0, List.mem_cons, Prod.mk.injEq, List.mem_nil_iff,
    or_false]
  omega

theorem glider_box (S : List (Int × Int))
    (hS : ∀ q ∈ S, 0 ≤ q.1 ∧ q.1 ≤ 3 ∧ 0 ≤ q.2 ∧ q.2 ≤ 3) (dim : Int) (hdim : 8 ≤ dim) :
    ∀ q ∈ S, 1 ≤ q.1 + (dim - 3) / 2 ∧ q.1 + (dim - 3) / 2 ≤ dim - 2 ∧
      1 ≤ q.2 + (dim - 3) / 2 ∧ q.2 + (dim - 3) / 2 ≤ dim - 2 := by
  intro q hq
  have := hS q hq
  omega

/-- C7: for every `dim ≥ 8`, four `Tick`s on `NewBoard(dim, glider)` give the initial
generation translated by `(1, 1)`: the cell `(r, c)` after the four `Tick`s is the initial cell
`((r-1+dim) mod dim, (c-1+dim) mod dim)`. -/
theorem glider_translation (dim : Int) (hdim : 8 ≤ dim) :
    ∃ b0 b4, NewBoard dim glider = some b0 ∧ tickN 4 b0 = some b4 ∧
      ∀ r c : Int, 0 ≤ r → r < dim → 0 ≤ c → c < dim →
        ∃ v, readCell b4.gen r c = some v ∧
          readCell b0.gen ((r - 1 + dim) % dim) ((c - 1 + dim) % dim) = some v := by
  have hlen : ((glider.length : Nat) : Int) = 3 := by decide
  obtain ⟨b0, hb0, hv0, hd0, hs0⟩ := NewBoard_holdsSet dim glider gliderCells0 (by omega)
    (by decide) (by rw [hlen]; omega) glider_cells (by decide)
  rw [hlen] at hs0
  obtain ⟨b1, hb1, hv1, hd1, hs1⟩ := Tick_holdsSet b0 hv0 _ gliderCells0 gliderCells1 hs0
    (by rw [hd0]; exact glider_box gliderCells0 (by decide) dim hdim) glider_step01
  obtain ⟨b2, hb2, hv2, hd2, hs2⟩ := Tick_holdsSet b1 hv1 _ gliderCells1 gliderCells2 hs1
    (by rw [hd1, hd0]; exact glider_box gliderCells1 (by decide) dim hdim) glider_step12
  obtain ⟨b3, hb3, hv3, hd3, hs3⟩ := Tick_holdsSet b2 hv2 _ gliderCells2 gliderCells3 hs2
    (by rw [hd2, hd1, hd0]; exact glider_box gliderCells2 (by decide) dim hdim) glider_step23
  obtain ⟨b4, hb4, hv4, hd4, hs4⟩ := Tick_holdsSet b3 hv3 _ gliderCells3 gliderCells4 hs3
    (by rw [hd3, hd2, hd1, hd0]; exact glider_box gliderCells3 (by decide) dim hdim) glider_step34
  have hd4' : b4.dim = dim := by rw [hd4, hd3, hd2, hd1, hd0]
  refine ⟨b0, b4, hb0, ?_, ?_⟩
  · simp only [tickN, hb1, hb2, hb3, hb4, Option.bind]
  · intro r c hr0 hr hc0 hc
    have er : r - 1 + dim = r + (-1) + dim := by ring
    have ec : c - 1 + dim = c + (-1) + dim := by ring
    rw [er, ec, emod_wrap dim r (-1) hr0 hr (by decide) (by decide),
      emod_wrap dim c (-1) hc0 hc (by decide) (by decide)]
    obtain ⟨hw1, hw2⟩ := wrapIdx_range dim r (-1) hr0 hr (by decide) (by decide)
    obtain ⟨hw3, hw4⟩ := wrapIdx_range dim c (-1) hc0 hc (by decide) (by decide)
    refine ⟨_, hs4 r c hr0 (by rw [hd4']; exact hr) hc0 (by rw [hd4']; exact hc), ?_⟩
    rw [hs0 _ _ hw1 (by rw [hd0]; exact hw2) hw3 (by rw [hd0]; exact hw4)]
    have hiff : (wrapIdx dim (r + -1) - (dim - 3) / 2, wrapIdx dim (c + -1) - (dim - 3) / 2)
        ∈ gliderCells0 ↔ (r - (dim - 3) / 2, c - (dim - 3) / 2) ∈ gliderCells4 := by
      rw [glider_shift]
      by_cases hnowrap : wrapIdx dim (r + -1) = r - 1 ∧ wrapIdx dim (c + -1) = c - 1
      · rw [hnowrap.1, hnowrap.2]
        have e1 : r - 1 - (dim - 3) / 2 = r - (dim - 3) / 2 - 1 := by ring
        have e2 : c - 1 - (dim - 3) / 2 = c - (dim - 3) / 2 - 1 := by ring
        rw [e1, e2]
      · have h0 : ∀ q ∈ gliderCells0, 0 ≤ q.1 ∧ q.1 ≤ 2 ∧ 0 ≤ q.2 ∧ q.2 ≤ 2 := by decide
        constructor
        · intro hin
          exfalso
          have hb := h0 _ hin
          simp only [] at hb
          apply hnowrap
          unfold wrapIdx at hb ⊢
          constructor
          · split_ifs at hb ⊢ <;> omega
          · split_ifs at hb ⊢ <;> omega
        · intro hin
          exfalso
          have hb := h0 _ hin
          simp only [] at hb
          apply hnowrap
          unfold wrapIdx
          constructor
          · split_ifs <;> omega
          · split_ifs <;> omega
    by_cases hin : (r - (dim - 3) / 2, c - (dim - 3) / 2) ∈ gliderCells4
    · rw [if_pos hin, if_pos (hiff.mpr hin)]
    · rw [if_neg hin, if_neg (fun h => hin (hiff.mp h))]

/-- C7 at `dim = 8`. -/
theorem glider_translation_witness :
    ∃ b0 b4, NewBoard 8 glider = some b0 ∧ tickN 4 b0 = some b4 ∧
      ∀ r c : Int, 0 ≤ r → r < 8 → 0 ≤ c → c < 8 →
        ∃ v, readCell b4.gen r c = some v ∧
          readCell b0.gen ((r - 1 + 8) % 8) ((c - 1 + 8) % 8) = some v :=
  glider_translation 8 (by decide)


/-- The cell value of `NewBoard` written with the variables of lines 83-94. -/
theorem newBoardCell_eq (dim : Int) (p : Pattern) (row col : Int) :
    newBoardCell dim p row col =
      if boundsTest dim (p.length : Int) row col then
        readCell p (row - pFirstCol dim (p.length : Int)) (col - pFirstRow dim (p.length : Int))
      else some D := rfl

/-- C11: two calls of `NewBoard` with identical arguments give identical results: the same
outcome, and when they return boards, equal `dim` fields and generations equal cell for
cell. -/
theorem NewBoard_deterministic (dim1 dim2 : Int) (p1 p2 : Pattern)
    (hdim : dim1 = dim2) (hp : p1 = p2) :
    NewBoard dim1 p1 = NewBoard dim2 p2 ∧
    ∀ b1 b2 : Board, NewBoard dim1 p1 = some b1 → NewBoard dim2 p2 = some b2 →
      b1.dim = b2.dim ∧ b1.gen = b2.gen ∧
        ∀ r c : Int, readCell b1.gen r c = readCell b2.gen r c := by
  subst hdim hp
  refine ⟨rfl, ?_⟩
  intro b1 b2 h1 h2
  rw [h1] at h2
  cases h2
  exact ⟨rfl, rfl, fun _ _ => rfl⟩

/-- C11 at `dim = 4` and the diagonal pattern, where both calls return a board. -/
theorem NewBoard_deterministic_witness :
    (NewBoard 4 diag2).isSome = true ∧ NewBoard 4 diag2 = NewBoard 4 diag2 ∧
    ∀ b1 b2 : Board, NewBoard 4 diag2 = some b1 → NewBoard 4 diag2 = some b2 →
      b1.dim = b2.dim ∧ b1.gen = b2.gen ∧
        ∀ r c : Int, readCell b1.gen r c = readCell b2.gen r c :=
  ⟨by decide, NewBoard_deterministic 4 4 diag2 diag2 rfl rfl⟩

/-- C13: for `dim ≥ 1` and a square pattern of side `pDim = dim`, `NewBoard(dim, p)` returns a
board whose generation is `p` cell for cell: offset zero, nothing added, dropped or moved. -/
theorem zero_margin_seed (dim : Int) (p : Pattern) (hdim : 1 ≤ dim)
    (hp : Square (p.length : Int) p) (hfit : (p.length : Int) = dim) :
    ∃ b, NewBoard dim p = some b ∧ b.dim = dim ∧ pFirstRow dim (p.length : Int) = 0 ∧
      (∀ row col : Int, 0 ≤ row → row < dim → 0 ≤ col → col < dim →
        ∃ v, readCell p row col = some v ∧ readCell b.gen row col = some v) ∧
      b.gen = p := by
  obtain ⟨b, hb, hd, hsq, hcell⟩ := NewBoard_spec dim (by omega) p hp
  have hoff : pFirstRow dim (p.length : Int) = 0 := by
    unfold pFirstRow
    rw [hfit]
    simp
  have key : ∀ row col : Int, 0 ≤ row → row < dim → 0 ≤ col → col < dim →
      readCell b.gen row col = readCell p row col := by
    intro row col hr0 hr hc0 hc
    rw [hcell row col hr0 hr hc0 hc, newBoardCell_eq]
    unfold boundsTest pLastCol pLastRow pFirstCol
    simp only [hoff]
    rw [if_pos (by omega)]
    simp
  refine ⟨b, hb, hd, hoff, ?_, ?_⟩
  · intro row col hr0 hr hc0 hc
    obtain ⟨v, hv⟩ := readCell_of_square _ p hp row col hr0 (by omega) hc0 (by omega)
    exact ⟨v, hv, by rw [key row col hr0 hr hc0 hc, hv]⟩
  · exact square_ext dim b.gen p hsq (by rw [← hfit]; exact hp) key

/-- C13 at `dim = 3` and the glider. -/
theorem zero_margin_seed_witness :
    ∃ b, NewBoard 3 glider = some b ∧ b.dim = 3 ∧ pFirstRow 3 (glider.length : Int) = 0 ∧
      (∀ row col : Int, 0 ≤ row → row < 3 → 0 ≤ col → col < 3 →
        ∃ v, readCell glider row col = some v ∧ readCell b.gen row col = some v) ∧
      b.gen = glider :=
  zero_margin_seed 3 glider (by decide) (by decide) (by decide)


/-- C14: for `dim ≥ 1` and `0 ≤ pDim ≤ dim` the offset `pFirstRow = (dim - pDim) / 2` of
`NewBoard` is non-negative and `pFirstRow + pDim ≤ dim`; the trailing margin
`dim - (pFirstRow + pDim)` equals the leading margin when `dim - pDim` is even and exceeds it
by one when it is odd; columns use the same offsets as rows. -/
theorem centring_arithmetic (dim pDim : Int) (_hdim : 1 ≤ dim) (_hp0 : 0 ≤ pDim)
    (hle : pDim ≤ dim) :
    pFirstRow dim pDim = (dim - pDim) / 2 ∧
    0 ≤ pFirstRow dim pDim ∧ pLastRow dim pDim = pFirstRow dim pDim + pDim ∧
    pLastRow dim pDim ≤ dim ∧
    pFirstCol dim pDim = pFirstRow dim pDim ∧ pLastCol dim pDim = pLastRow dim pDim ∧
    ((dim - pDim) % 2 = 0 → dim - pLastRow dim pDim = pFirstRow dim pDim) ∧
    ((dim - pDim) % 2 = 1 → dim - pLastRow dim pDim = pFirstRow dim pDim + 1) := by
  have hoff : pFirstRow dim pDim = (dim - pDim) / 2 := by
    unfold pFirstRow
    exact Int.tdiv_eq_ediv (by omega) (by decide)
  unfold pLastCol pFirstCol pLastRow
  rw [hoff]
  refine ⟨rfl, ?_, rfl, ?_, rfl, rfl, ?_, ?_⟩ <;> omega

/-- C14 at `dim = 25` and `pDim = 3`: offset 11, trailing margin 11. -/
theorem centring_arithmetic_witness :
    pFirstRow 25 3 = (25 - 3) / 2 ∧
    0 ≤ pFirstRow 25 3 ∧ pLastRow 25 3 = pFirstRow 25 3 + 3 ∧
    pLastRow 25 3 ≤ 25 ∧
    pFirstCol 25 3 = pFirstRow 25 3 ∧ pLastCol 25 3 = pLastRow 25 3 ∧
    (((25 : Int) - 3) % 2 = 0 → 25 - pLastRow 25 3 = pFirstRow 25 3) ∧
    (((25 : Int) - 3) % 2 = 1 → 25 - pLastRow 25 3 = pFirstRow 25 3 + 1) :=
  centring_arithmetic 25 3 (by decide) (by decide) (by decide)

/-- C16: for `dim ≥ 1` and a square pattern of side `pDim > dim`, the offset of `NewBoard` is
`≤ 0`, every `(row, col)` of the board passes the bounds test, the indices `row - off` and
`col - off` lie in `[0, pDim)`, and `NewBoard` returns a board whose cell `(row, col)` is
`p[row - off][col - off]`: a window of the pattern, not a failure. -/
theorem oversized_seed_in_range (dim : Int) (p : Pattern) (hdim : 1 ≤ dim)
    (hp : Square (p.length : Int) p) (hbig : dim < (p.length : Int)) :
    pFirstRow dim (p.length : Int) ≤ 0 ∧
    ∃ b, NewBoard dim p = some b ∧ b.dim = dim ∧ Square dim b.gen ∧
      ∀ row col : Int, 0 ≤ row → row < dim → 0 ≤ col → col < dim →
        boundsTest dim (p.length : Int) row col ∧
        0 ≤ row - pFirstCol dim (p.length : Int) ∧
        row - pFirstCol dim (p.length : Int) < (p.length : Int) ∧
        0 ≤ col - pFirstRow dim (p.length : Int) ∧
        col - pFirstRow dim (p.length : Int) < (p.length : Int) ∧
        ∃ v, readCell p (row - pFirstCol dim (p.length : Int))
            (col - pFirstRow dim (p.length : Int)) = some v ∧
          readCell b.gen row col = some v := by
  have hoff : pFirstRow dim (p.length : Int) = -((-(dim - (p.length : Int))) / 2) := by
    unfold pFirstRow
    exact tdiv_two_of_nonpos _ (by omega)
  obtain ⟨b, hb, hd, hsq, hcell⟩ := NewBoard_spec dim (by omega) p hp
  refine ⟨by rw [hoff]; omega, b, hb, hd, hsq, ?_⟩
  intro row col hr0 hr hc0 hc
  have htest : boundsTest dim (p.length : Int) row col := by
    unfold boundsTest pLastCol pLastRow pFirstCol
    rw [hoff]
    omega
  have hrange : 0 ≤ row - pFirstCol dim (p.length : Int) ∧
      row - pFirstCol dim (p.length : Int) < (p.length : Int) ∧
      0 ≤ col - pFirstRow dim (p.length : Int) ∧
      col - pFirstRow dim (p.length : Int) < (p.length : Int) := by
    unfold pFirstCol
    rw [hoff]
    omega
  obtain ⟨h1, h2, h3, h4⟩ := hrange
  obtain ⟨v, hv⟩ := readCell_of_square _ p hp _ _ h1 h2 h3 h4
  refine ⟨htest, h1, h2, h3, h4, v, hv, ?_⟩
  rw [hcell row col hr0 hr hc0 hc, newBoardCell_eq, if_pos htest, hv]

/-- C16 at `dim = 2` and the 5x5 spaceship. -/
theorem oversized_seed_in_range_witness :
    pFirstRow 2 (spaceship.length : Int) ≤ 0 ∧
    ∃ b, NewBoard 2 spaceship = some b ∧ b.dim = 2 ∧ Square 2 b.gen ∧
      ∀ row col : Int, 0 ≤ row → row < 2 → 0 ≤ col → col < 2 →
        boundsTest 2 (spaceship.length : Int) row col ∧
        0 ≤ row - pFirstCol 2 (spaceship.length : Int) ∧
        row - pFirstCol 2 (spaceship.length : Int) < (spaceship.length : Int) ∧
        0 ≤ col - pFirstRow 2 (spaceship.length : Int) ∧
        col - pFirstRow 2 (spaceship.length : Int) < (spaceship.length : Int) ∧
        ∃ v, readCell spaceship (row - pFirstCol 2 (spaceship.length : Int))
            (col - pFirstRow 2 (spaceship.length : Int)) = some v ∧
          readCell b.gen row col = some v :=
  oversized_seed_in_range 2 spaceship (by decide) (by decide) (by decide)



/-- C12 (amended): on a structurally valid board of side `dim ≥ 2` the count left by the
neighbour loop of `fate` is the number of offsets other than `(0,0)` whose wrapped cell is
live, each counted even when it wraps onto an already counted cell; on a side of one every
offset wraps onto the cell itself, is skipped by the self-exclusion test, and the count
is zero. -/
theorem neighbour_count_as_specified (b : Board) (hv : b.Valid) (r c : Int)
    (hr0 : 0 ≤ r) (hr : r < b.dim) (hc0 : 0 ≤ c) (hc : c < b.dim) :
    (2 ≤ b.dim → fateNeighbors b r c = some (specLiveNeighbours b.dim b.gen r c : Int)) ∧
    (b.dim = 1 → fateNeighbors b r c = some 0) := by
  rw [fateNeighbors_eq b hv r c hr0 hr hc0 hc]
  constructor
  · intro h2
    rw [nbrCount_eq_spec b.dim b.gen r c h2 hr0 hr hc0 hc]
  · intro h1
    have e1 : r = 0 := by omega
    have e2 : c = 0 := by omega
    rw [h1, e1, e2, nbrCount_dim_one]

/-- C12 (amended) on the 2x2 board with three live cells, at `(1, 1)`. -/
theorem neighbour_count_as_specified_witness :
    (⟨2, three2⟩ : Board).Valid ∧
    ((2 : Int) ≤ 2 → fateNeighbors ⟨2, three2⟩ 1 1 = some (specLiveNeighbours 2 three2 1 1 : Int)) ∧
    ((2 : Int) = 1 → fateNeighbors ⟨2, three2⟩ 1 1 = some 0) :=
  ⟨by decide, neighbour_count_as_specified ⟨2, three2⟩ (by decide) 1 1 (by decide) (by decide)
    (by decide) (by decide)⟩

/-- C12 as stated fails on the valid 1x1 board with a live cell: the loop of `fate` leaves
zero, the specified count over the eight offsets is eight. -/
theorem neighbour_count_counterexample :
    (⟨1, live1⟩ : Board).Valid ∧ fateNeighbors ⟨1, live1⟩ 0 0 = some 0 ∧
    specLiveNeighbours 1 live1 0 0 = 8 := by
  decide

/-- On a side of two every other cell is reached by two or four offsets: the count is even. -/
theorem nbrCount_dim_two_even (g : Pattern) (r c : Int)
    (hr0 : 0 ≤ r) (hr : r < 2) (hc0 : 0 ≤ c) (hc : c < 2) : nbrCount 2 g r c % 2 = 0 := by
  interval_cases r <;> interval_cases c <;> simp [nbrCount, nbrTerm, wrapIdx] <;> omega

theorem rule_no_birth (n : Int) (s : Rune) (hn : n ≠ 3) (hs : s ≠ L) : rule n s = D := by
  unfold rule
  split_ifs <;> rfl

/-- C17: on a structurally valid board of side 1 or 2 the live-neighbour count is even, never
3, and zero on a side of one; a cell that is dead before `Tick` is dead after it, and on a
side of one the single cell is dead after `Tick`. -/
theorem degenerate_torus_no_birth (b : Board) (hv : b.Valid) (hdim : b.dim = 1 ∨ b.dim = 2) :
    ∃ b2, Tick b = some b2 ∧
      (∀ r c : Int, 0 ≤ r → r < b.dim → 0 ≤ c → c < b.dim →
        (∃ n, fateNeighbors b r c = some n ∧ n % 2 = 0 ∧ n ≠ 3 ∧ (b.dim = 1 → n = 0)) ∧
        (readCell b.gen r c = some D → readCell b2.gen r c = some D)) ∧
      (b.dim = 1 → readCell b2.gen 0 0 = some D) := by
  obtain ⟨b2, hb2, _, _, hcell⟩ := Tick_spec b hv.2
  have hcount : ∀ r c : Int, 0 ≤ r → r < b.dim → 0 ≤ c → c < b.dim →
      nbrCount b.dim b.gen r c % 2 = 0 ∧ (b.dim = 1 → nbrCount b.dim b.gen r c = 0) := by
    intro r c hr0 hr hc0 hc
    rcases hdim with h1 | h2
    · have e1 : r = 0 := by omega
      have e2 : c = 0 := by omega
      rw [h1, e1, e2, nbrCount_dim_one]
      exact ⟨rfl, fun _ => rfl⟩
    · rw [h2] at hr hc ⊢
      exact ⟨nbrCount_dim_two_even b.gen r c hr0 hr hc0 hc, fun h => absurd h (by decide)⟩
  refine ⟨b2, hb2, ?_, ?_⟩
  · intro r c hr0 hr hc0 hc
    obtain ⟨heven, hone⟩ := hcount r c hr0 hr hc0 hc
    refine ⟨⟨_, fateNeighbors_eq b hv r c hr0 hr hc0 hc, heven, by omega, hone⟩, ?_⟩
    intro hdead
    obtain ⟨state, hs, hf⟩ := fate_eq b hv r c hr0 hr hc0 hc
    rw [hdead] at hs
    cases hs
    rw [hcell r c hr0 hr hc0 hc, hf, rule_no_birth _ D (by omega) (by decide)]
  · intro h1
    obtain ⟨_, hone⟩ := hcount 0 0 (by omega) (by omega) (by omega) (by omega)
    obtain ⟨state, hs, hf⟩ := fate_eq b hv 0 0 (by omega) (by omega) (by omega) (by omega)
    rw [hcell 0 0 (by omega) (by omega) (by omega) (by omega), hf, hone h1]
    rfl

/-- C17 on the 2x2 board with three live cells. -/
theorem degenerate_torus_no_birth_witness :
    ∃ b2, Tick ⟨2, three2⟩ = some b2 ∧
      (∀ r c : Int, 0 ≤ r → r < 2 → 0 ≤ c → c < 2 →
        (∃ n, fateNeighbors ⟨2, three2⟩ r c = some n ∧ n % 2 = 0 ∧ n ≠ 3 ∧
          ((2 : Int) = 1 → n = 0)) ∧
        (readCell three2 r c = some D → readCell b2.gen r c = some D)) ∧
      ((2 : Int) = 1 → readCell b2.gen 0 0 = some D) :=
  degenerate_torus_no_birth ⟨2, three2⟩ (by decide) (by decide)



/-- Moving by `a` and then wrapping an offset is wrapping the offset and then moving. -/
theorem shift_index (dim r o a : Int) :
    ((r + o + dim) % dim - a) % dim = ((r - a) % dim + o + dim) % dim := by
  have h1 : (r + o + dim) % dim ≡ r + o + dim [ZMOD dim] := Int.mod_modEq _ _
  have h2 : (r - a) % dim ≡ r - a [ZMOD dim] := Int.mod_modEq _ _
  have h3 : (r + o + dim) % dim - a ≡ r + o + dim - a [ZMOD dim] := h1.sub_right a
  have h4 : (r - a) % dim + o + dim ≡ r - a + o + dim [ZMOD dim] :=
    (h2.add_right o).add_right dim
  have e : r + o + dim - a = r - a + o + dim := by ring
  rw [e] at h3
  exact h3.trans h4.symm

/-- The specified neighbour count does not depend on where the torus is cut: the count of a
moved grid at `(r, c)` is the count of the grid at the cell moved back. -/
theorem specLiveNeighbours_shift (dim a b : Int) (g gs : Pattern) (hdim : 1 ≤ dim)
    (hshift : IsShift dim a b g gs) (r c : Int) :
    specLiveNeighbours dim gs r c = specLiveNeighbours dim g ((r - a) % dim) ((c - b) % dim) := by
  unfold specLiveNeighbours
  apply List.countP_congr
  intro o _
  have hpos : (0 : Int) < dim := by omega
  have hne : dim ≠ 0 := by omega
  rw [hshift _ _ (Int.emod_nonneg _ hne) (Int.emod_lt_of_pos _ hpos)
    (Int.emod_nonneg _ hne) (Int.emod_lt_of_pos _ hpos),
    shift_index dim r o.1 a, shift_index dim c o.2 b]

/-- One `Tick` of a valid board: the new cell is the specified rule on the specified count. -/
theorem Tick_cell_specRule (b : Board) (hv : b.Valid) :
    ∃ b2, Tick b = some b2 ∧ b2.dim = b.dim ∧ Square b.dim b2.gen ∧
      ∀ r c : Int, 0 ≤ r → r < b.dim → 0 ≤ c → c < b.dim →
        readCell b2.gen r c = some
          (if specLiveNeighbours b.dim b.gen r c = 3 ∨
              (specLiveNeighbours b.dim b.gen r c = 2 ∧ readCell b.gen r c = some L)
            then L else D) := by
  obtain ⟨b2, hb2, hd2, hsq2, hcell⟩ := Tick_spec b hv.2
  refine ⟨b2, hb2, hd2, hsq2, ?_⟩
  intro r c hr0 hr hc0 hc
  obtain ⟨state, hs, hf⟩ := fate_eq b hv r c hr0 hr hc0 hc
  rw [hcell r c hr0 hr hc0 hc, hf, rule_eq_specRule b.dim b.gen r c hv.1 hr0 hr hc0 hc state hs]

/-- C15: `Tick` commutes with translation on the torus: when `gs` is the `dim x dim`
generation `g` moved by `(a, b)`, the `Tick` of the board holding `gs` is the `Tick` of the
board holding `g` moved by `(a, b)`. -/
theorem Tick_commutes_with_shift (dim a b : Int) (g gs : Pattern) (hdim : 1 ≤ dim)
    (hg : Square dim g) (hgs : Square dim gs) (hshift : IsShift dim a b g gs) :
    ∃ t ts, Tick ⟨dim, g⟩ = some t ∧ Tick ⟨dim, gs⟩ = some ts ∧
      Square dim t.gen ∧ Square dim ts.gen ∧ IsShift dim a b t.gen ts.gen := by
  obtain ⟨t, ht, _, hsqt, hct⟩ := Tick_cell_specRule ⟨dim, g⟩ ⟨hdim, hg⟩
  obtain ⟨ts, hts, _, hsqts, hcts⟩ := Tick_cell_specRule ⟨dim, gs⟩ ⟨hdim, hgs⟩
  refine ⟨t, ts, ht, hts, hsqt, hsqts, ?_⟩
  intro r c hr0 hr hc0 hc
  have hpos : (0 : Int) < dim := by omega
  have hne : dim ≠ 0 := by omega
  rw [hcts r c hr0 hr hc0 hc,
    hct _ _ (Int.emod_nonneg _ hne) (Int.emod_lt_of_pos _ hpos)
      (Int.emod_nonneg _ hne) (Int.emod_lt_of_pos _ hpos)]
  simp only []
  rw [specLiveNeighbours_shift dim a b g gs hdim hshift r c, hshift r c hr0 hr hc0 hc]

/-- C15 on the 3x3 grid `patch3` moved by `(1, 2)`. -/
theorem Tick_commutes_with_shift_witness :
    IsShift 3 1 2 patch3 patch3Shifted ∧
    ∃ t ts, Tick ⟨3, patch3⟩ = some t ∧ Tick ⟨3, patch3Shifted⟩ = some ts ∧
      Square 3 t.gen ∧ Square 3 ts.gen ∧ IsShift 3 1 2 t.gen ts.gen :=
  have hs : IsShift 3 1 2 patch3 patch3Shifted := by
    intro r c hr0 hr hc0 hc
    interval_cases r <;> interval_cases c <;> decide
  ⟨hs, Tick_commutes_with_shift 3 1 2 patch3 patch3Shifted (by decide) (by decide) (by decide) hs⟩



end Gol
